import Mathlib

/-!
MinimalisticClipboard: the history controller and the license check.

A shallow embedding of `electron/main.js`: the clipboard history kept by the
main process (`clipboardHistory`), the persistent key-value store
(`electron-store`), the clipboard watcher and its body that records a new entry,
the IPC handlers `copy-to-clipboard`, `delete-item`, `toggle-pin`,
`clear-history`, `get-settings`, `save-settings`, `get-license-status`,
`activate-license` and `deactivate-license`, the functions `handleDeepLink` and
`checkLicenseWithServer`; and of `generateLicenseKey` of `server/index.js`.

Conventions of the embedding.

* A JavaScript array is a `List`; a string is a `String`; the numbers that the
  handlers compare (`Date.now()` ids, `maxHistorySize`, array lengths) are
  integers: ids are `Nat`, `maxHistorySize` is an `Int` because the settings
  form stores whatever `parseInt` returned, negative values included.
* `store.get(key, dflt)` on a key that may be absent is `Option.getD`.
* The handlers mutate module-level state; here every handler is a function from
  the state before to the state after (and the value returned to the caller).
* The clock readings `Date.now()` and `new Date().toISOString()` are arguments,
  and so are the other inputs from outside: the text read from the clipboard, the
  outcome of `new URL(url)`, the reply of the license server and the bytes drawn
  by `crypto.randomBytes`.
-/

namespace MinimalisticClipboard

/-! ## Data model -/

/-- An element of `clipboardHistory` (main.js, the `newItem` literal, lines 35-41). -/
structure ClipboardEntry where
  id : Nat
  content : String
  type : String
  timestamp : String
  pinned : Bool
  deriving DecidableEq, Repr

/-- The keys of the `electron-store` document the main process reads and writes.
`none` is a key that has never been set. `activatedDate` is `null` or a string,
and `store.get('activatedDate', null)` does not tell an absent key from a stored
`null`, so one `Option` stands for both. -/
structure Store where
  clipboardHistory : Option (List ClipboardEntry)
  isPro : Option Bool
  licenseKey : Option String
  activatedDate : Option String
  maxHistorySize : Option Int
  globalHotkey : Option String
  deriving DecidableEq, Repr

/-- The mutable state of the main process the handlers work on: the module-level
`clipboardHistory` array (main.js line 8) and the store (line 5). -/
structure AppState where
  clipboardHistory : List ClipboardEntry
  store : Store
  deriving DecidableEq, Repr

/-- A store in which no key has been set (first run). -/
def Store.empty : Store :=
  { clipboardHistory := none, isPro := none, licenseKey := none,
    activatedDate := none, maxHistorySize := none, globalHotkey := none }

/-! ## JavaScript array primitives used by the handlers -/

/-- `Array.prototype.findIndex`: the index of the first element satisfying `p`,
`none` standing for the result `-1`. -/
def findIndex {α : Type} (p : α → Bool) : List α → Option Nat
  | [] => none
  | x :: xs => if p x then some 0 else (findIndex p xs).map (· + 1)

/-- `arr.splice(i, 1)`: the array without the element at index `i`. -/
def splice1 {α : Type} : List α → Nat → List α
  | [], _ => []
  | _ :: xs, 0 => xs
  | x :: xs, i + 1 => x :: splice1 xs i

/-- `arr.slice(0, k)` for an integer `k`: the first `k` elements when `k ≥ 0`
(all of them when `k` exceeds the length); for a negative `k` the end index is
`max (length + k) 0`, that is, the last `-k` elements are left out. -/
def slice0 {α : Type} (l : List α) (k : Int) : List α :=
  if k < 0 then l.take ((l.length : Int) + k).toNat else l.take k.toNat

/-! ## The history controller -/

/-- Lines 46-47 of main.js: `isPro ? store.get('maxHistorySize', 100) : 20`
with `isPro = store.get('isPro', false)`. -/
def maxItems (s : Store) : Int :=
  if s.isPro.getD false then s.maxHistorySize.getD 100 else 20

/-- Lines 30-33: drop the first entry whose content is `currentText`, if any. -/
def dropExisting (h : List ClipboardEntry) (currentText : String) : List ClipboardEntry :=
  match findIndex (fun item => item.content == currentText) h with
  | some existingIndex => splice1 h existingIndex
  | none => h

/-- Lines 35-41: the entry built for a new clipboard text. -/
def newItem (currentText : String) (now : Nat) (iso : String) : ClipboardEntry :=
  { id := now, content := currentText, type := "text", timestamp := iso, pinned := false }

/-- Lines 49-55: the capacity trim. Pinned entries are all kept and moved to the
front; the unpinned ones are cut to `limit`. Nothing changes when the unpinned
entries are not more than `limit`. -/
def trimToCapacity (h : List ClipboardEntry) (limit : Int) : List ClipboardEntry :=
  let pinnedItems := h.filter (fun item => item.pinned)
  let unpinnedItems := h.filter (fun item => !item.pinned)
  if (unpinnedItems.length : Int) > limit then
    pinnedItems ++ slice0 unpinnedItems limit
  else h

/-- Lines 29-55 on the array alone: de-duplicate, `unshift` the new entry, trim. -/
def recordNewList (h : List ClipboardEntry) (limit : Int) (currentText : String)
    (now : Nat) (iso : String) : List ClipboardEntry :=
  trimToCapacity (newItem currentText now iso :: dropExisting h currentText) limit

/-- The body of the watcher once a new text has been detected (lines 29-58):
the array is updated and written through to the store. -/
def recordNew (st : AppState) (currentText : String) (now : Nat) (iso : String) : AppState :=
  let h := recordNewList st.clipboardHistory (maxItems st.store) currentText now iso
  { clipboardHistory := h, store := { st.store with clipboardHistory := some h } }

/-- Handler `delete-item` (lines 156-160): the new state and the returned array. -/
def deleteItem (st : AppState) (id : Nat) : AppState × List ClipboardEntry :=
  let h := st.clipboardHistory.filter (fun item => item.id != id)
  ({ clipboardHistory := h, store := { st.store with clipboardHistory := some h } }, h)

/-- `Array.prototype.find` followed by the in-place update `item.pinned = !item.pinned`
of the element found: the first entry with that id has its flag negated. -/
def flipFirst (id : Nat) : List ClipboardEntry → List ClipboardEntry
  | [] => []
  | item :: rest =>
    if item.id == id then { item with pinned := !item.pinned } :: rest
    else item :: flipFirst id rest

/-- Handler `toggle-pin` (lines 162-169): when an entry with that id is found
its flag is negated and the array persisted; the array is returned either way. -/
def togglePin (st : AppState) (id : Nat) : AppState × List ClipboardEntry :=
  match st.clipboardHistory.find? (fun item => item.id == id) with
  | some _ =>
    let h := flipFirst id st.clipboardHistory
    ({ clipboardHistory := h, store := { st.store with clipboardHistory := some h } }, h)
  | none => (st, st.clipboardHistory)

/-- Handler `clear-history` (lines 171-175): returns `true`. -/
def clearHistory (st : AppState) : AppState × Bool :=
  ({ clipboardHistory := [], store := { st.store with clipboardHistory := some [] } }, true)

/-- Number of entries with `pinned` false. -/
def unpinnedCount (h : List ClipboardEntry) : Nat :=
  (h.filter (fun item => !item.pinned)).length

/-- The operations on the history named by the interface. -/
inductive HistoryOp where
  | recordNew (content : String) (now : Nat) (iso : String)
  | deleteItem (id : Nat)
  | togglePin (id : Nat)
  | clearHistory
  deriving Repr

/-- One operation applied to the state. -/
def applyOp (st : AppState) : HistoryOp → AppState
  | .recordNew content now iso => recordNew st content now iso
  | .deleteItem id => (deleteItem st id).1
  | .togglePin id => (togglePin st id).1
  | .clearHistory => (clearHistory st).1

/-- The state after a sequence of operations, first operation first. -/
def runOps (st : AppState) (ops : List HistoryOp) : AppState :=
  ops.foldl applyOp st

/-- No two entries of the collection have the same content. -/
def NoDupContent (h : List ClipboardEntry) : Prop :=
  (h.map (fun item => item.content)).Nodup

/-! ## States used in the examples -/

/-- A state for the examples: a Pro license whose stored `maxHistorySize` is `-1`,
and two unpinned entries. -/
def negativeLimitState : AppState :=
  { clipboardHistory :=
      [ { id := 2, content := "b", type := "text", timestamp := "t2", pinned := false },
        { id := 1, content := "a", type := "text", timestamp := "t1", pinned := false } ],
    store := { Store.empty with isPro := some true, maxHistorySize := some (-1) } }

/-- A state for the examples: the free tier with 21 unpinned entries (over the limit)
and one pinned entry at the end. -/
def overfullFreeState : AppState :=
  { clipboardHistory :=
      (List.range 21).map (fun i =>
        { id := 100 + i, content := toString i, type := "text", timestamp := "t", pinned := false })
      ++ [ { id := 7, content := "keep", type := "text", timestamp := "t0", pinned := true } ],
    store := Store.empty }

/-- A state for the examples: the free tier at its limit, 20 unpinned entries, and one
pinned entry at the end. -/
def fullFreeState : AppState :=
  { clipboardHistory :=
      (List.range 20).map (fun i =>
        { id := 100 + i, content := toString i, type := "text", timestamp := "t", pinned := false })
      ++ [ { id := 7, content := "keep", type := "text", timestamp := "t0", pinned := true } ],
    store := Store.empty }

/-- A state for the examples: two entries with the same content. -/
def twiceSameState : AppState :=
  { clipboardHistory :=
      [ { id := 2, content := "x", type := "text", timestamp := "t2", pinned := false },
        { id := 1, content := "x", type := "text", timestamp := "t1", pinned := false } ],
    store := Store.empty }

/-- A collection for the examples: one unpinned entry and one pinned entry. -/
def pinnedAndPlain : List ClipboardEntry :=
  [ { id := 2, content := "b", type := "text", timestamp := "t2", pinned := false },
    { id := 1, content := "a", type := "text", timestamp := "t1", pinned := true } ]

/-- A state for the examples: `pinnedAndPlain` in memory and persisted. -/
def pinnedAndPlainState : AppState :=
  { clipboardHistory := pinnedAndPlain,
    store := { Store.empty with clipboardHistory := some pinnedAndPlain } }

/-- The fields of an entry other than `pinned`. -/
def ClipboardEntry.payload (e : ClipboardEntry) : Nat × String × String × String :=
  (e.id, e.content, e.type, e.timestamp)

/-! ## The license check -/

/-- The upper-case form of one character on ASCII, `a`-`z` going to `A`-`Z` and every
other character staying as it is. This is how the `i` flag of a regular expression
without the `u` flag canonicalises the characters it compares with ASCII pattern
characters: a non-ASCII character is never canonicalised to an ASCII one. -/
def upperChar (c : Char) : Char :=
  if 97 ≤ c.toNat ∧ c.toNat ≤ 122 then Char.ofNat (c.toNat - 32) else c

/-- The non-ASCII characters whose upper-case form in the Unicode case tables
(UnicodeData and SpecialCasing) holds an ASCII character, by code point, with that
form: sharp s, dotless i, n preceded by apostrophe, long s, j with caron, h with line
below, t with diaeresis, w and y with ring above, a with right half ring, and the
ligatures ff, fi, fl, ffi, ffl, long s t and st. -/
def specialUpper : List (Nat × List Char) :=
  [ (0xDF, ['S', 'S']), (0x131, ['I']), (0x149, [Char.ofNat 0x2BC, 'N']), (0x17F, ['S']),
    (0x1F0, ['J', Char.ofNat 0x30C]), (0x1E96, ['H', Char.ofNat 0x331]),
    (0x1E97, ['T', Char.ofNat 0x308]), (0x1E98, ['W', Char.ofNat 0x30A]),
    (0x1E99, ['Y', Char.ofNat 0x30A]), (0x1E9A, ['A', Char.ofNat 0x2BE]),
    (0xFB00, ['F', 'F']), (0xFB01, ['F', 'I']), (0xFB02, ['F', 'L']),
    (0xFB03, ['F', 'F', 'I']), (0xFB04, ['F', 'F', 'L']), (0xFB05, ['S', 'T']),
    (0xFB06, ['S', 'T']) ]

/-- The upper-case form of one character as `String.prototype.toUpperCase` computes it,
for every character whose form holds an ASCII character: `a`-`z` go to `A`-`Z`, the
characters of `specialUpper` to their listed forms, the other ASCII characters to
themselves. Every remaining character has an upper-case form made of non-ASCII
characters only and is kept as it is; the handlers compare an upper-cased key with
ASCII literals and store it only when it is ASCII, so which non-ASCII form stands
there changes nothing they return or store (`isValidKeyWith_eq` below). -/
def upperCaseOf (c : Char) : List Char :=
  match specialUpper.lookup c.toNat with
  | some form => form
  | none => [upperChar c]

/-- `String.prototype.toUpperCase`, character by character through `upperCaseOf`. -/
def toUpperCase (s : String) : String :=
  String.mk (s.data.flatMap upperCaseOf)

/-- A pattern character of a regular expression: a literal character or a
character class given by its ranges, such as `[A-Z0-9]`. -/
inductive Atom where
  | lit (c : Char)
  | cls (ranges : List (Char × Char))
  deriving Repr

/-- An atom with its quantifier `{lo,hi}`; a bare atom has `{1,1}`. -/
structure Piece where
  atom : Atom
  lo : Nat
  hi : Nat
  deriving Repr

/-- A regular expression of the shape used by the license check: `^`, a sequence of
quantified atoms, `$`, with or without the `i` flag. -/
structure RegExp where
  pieces : List Piece
  ignoreCase : Bool
  deriving Repr

/-- Whether one input character matches an atom. With the `i` flag the input
character and a literal are compared after canonicalisation (upper-casing), and a
class is tested on the canonicalised input character (the ranges used here hold
upper-case letters and digits, which are their own canonical forms). -/
def Atom.test (ignoreCase : Bool) (a : Atom) (c : Char) : Bool :=
  let canon := fun x : Char => if ignoreCase then upperChar x else x
  match a with
  | .lit l => canon c == canon l
  | .cls ranges =>
    ranges.any (fun r => decide (r.1.toNat ≤ (canon c).toNat ∧ (canon c).toNat ≤ r.2.toNat))

/-- Every way of matching an atom between `lo` and `hi` times at the start of the
input, longest first, each given by the input left over. -/
def matchRep (ignoreCase : Bool) (a : Atom) : Nat → Nat → List Char → List (List Char)
  | lo, 0, s => if lo = 0 then [s] else []
  | lo, hi + 1, s =>
    (match s with
      | c :: cs => if a.test ignoreCase c then matchRep ignoreCase a (lo - 1) hi cs else []
      | [] => [])
    ++ (if lo = 0 then [s] else [])

/-- Every way of matching a sequence of pieces at the start of the input (the
backtracking search of the matcher), each given by the input left over. -/
def matchPieces (ignoreCase : Bool) : List Piece → List Char → List (List Char)
  | [], s => [s]
  | p :: ps, s =>
    (matchRep ignoreCase p.atom p.lo p.hi s).flatMap (fun rest => matchPieces ignoreCase ps rest)

/-- `RegExp.prototype.test` for an expression anchored by `^` and `$`: some way of
matching all pieces leaves no input over. -/
def RegExp.test (re : RegExp) (s : String) : Bool :=
  (matchPieces re.ignoreCase re.pieces s.data).any (fun rest => rest.isEmpty)

/-- The class `[A-Z0-9]`. -/
def upperAlnum : Atom := .cls [('A', 'Z'), ('0', '9')]

/-- The expression `/^PRO-[A-Z0-9]{2,8}-[A-Z0-9]{2,8}-[A-Z0-9]{2,8}$/i` of main.js line 212. -/
def licensePattern : RegExp :=
  { pieces :=
      [ ⟨.lit 'P', 1, 1⟩, ⟨.lit 'R', 1, 1⟩, ⟨.lit 'O', 1, 1⟩, ⟨.lit '-', 1, 1⟩,
        ⟨upperAlnum, 2, 8⟩, ⟨.lit '-', 1, 1⟩,
        ⟨upperAlnum, 2, 8⟩, ⟨.lit '-', 1, 1⟩,
        ⟨upperAlnum, 2, 8⟩ ],
    ignoreCase := true }

/-- The allow-list of main.js lines 205-209. -/
def validLicenses : List String :=
  ["PRO-MC-2024-PREMIUM", "PRO-MC-LIFETIME-KEY", "MC-UNLIMITED-2024"]

/-- The allow-listed key `PRO-MC-LIFETIME-KEY` spelled in lower case with the dotless i
(U+0131) in place of both letters i, for the examples: `toUpperCase` turns it into the
literal. -/
def dotlessLifetimeKey : String :=
  "pro-mc-lıfetıme-key"

/-- Line 212: `isValidFormat`. -/
def isValidFormat (licenseKey : String) : Bool :=
  licensePattern.test licenseKey

/-- Line 213: `validLicenses.includes(licenseKey.toUpperCase()) || isValidFormat`. -/
def isValidKey (licenseKey : String) : Bool :=
  validLicenses.contains (toUpperCase licenseKey) || isValidFormat licenseKey

/-- The characters `upperCaseOf` keeps as they are although the Unicode tables may give
them another upper-case form: the non-ASCII characters outside `specialUpper`. Their
upper-case form holds no ASCII character. -/
def isRemaining (c : Char) : Bool :=
  decide (128 ≤ c.toNat) && (specialUpper.lookup c.toNat).isNone

/-- The upper-case form of one character when the forms of the remaining characters are
given by `other`. -/
def upperCaseOfWith (other : Char → List Char) (c : Char) : List Char :=
  if isRemaining c then other c else upperCaseOf c

/-- The function `toUpperCase` with the forms of the remaining characters given by
`other`: with the Unicode table for `other` this is `String.prototype.toUpperCase` on
every string. -/
def toUpperCaseWith (other : Char → List Char) (s : String) : String :=
  String.mk (s.data.flatMap (upperCaseOfWith other))

/-- What is assumed of the forms of the remaining characters: each is a non-empty
sequence of non-ASCII characters. -/
def NonAsciiForms (other : Char → List Char) : Prop :=
  ∀ c, isRemaining c = true → other c ≠ [] ∧ ∀ d ∈ other c, 128 ≤ d.toNat

/-- Line 213 with the forms of the remaining characters given by `other`. -/
def isValidKeyWith (other : Char → List Char) (licenseKey : String) : Bool :=
  validLicenses.contains (toUpperCaseWith other licenseKey) || isValidFormat licenseKey

/-- The object returned by `activate-license`. -/
structure ActivationResult where
  success : Bool
  message : String
  deriving DecidableEq, Repr

/-- Handler `activate-license` (lines 203-223); `iso` is `new Date().toISOString()`. -/
def activateLicense (st : AppState) (licenseKey : String) (iso : String) :
    AppState × ActivationResult :=
  if isValidKey licenseKey then
    ({ st with store := { st.store with
          isPro := some true,
          licenseKey := some (toUpperCase licenseKey),
          activatedDate := some iso } },
     { success := true, message := "License activated successfully!" })
  else
    (st, { success := false, message := "Invalid license key. Please check and try again." })

/-- The words an input is split into when a piece matches: between `lo` and `hi`
characters, each matching the atom. -/
def PieceMatches (ignoreCase : Bool) (p : Piece) (w : List Char) : Prop :=
  p.lo ≤ w.length ∧ w.length ≤ p.hi ∧ ∀ c ∈ w, p.atom.test ignoreCase c = true

/-- An ASCII letter or digit. -/
def IsAlphanumeric (c : Char) : Prop :=
  (97 ≤ c.toNat ∧ c.toNat ≤ 122) ∨ (65 ≤ c.toNat ∧ c.toNat ≤ 90) ∨ (48 ≤ c.toNat ∧ c.toNat ≤ 57)

/-- A segment of a license key as the specification words it: 2 to 8 alphanumeric
characters. -/
def IsSegment (s : List Char) : Prop :=
  2 ≤ s.length ∧ s.length ≤ 8 ∧ ∀ c ∈ s, IsAlphanumeric c

/-- The form `PRO-S1-S2-S3` as the specification words it, letters in either case. -/
def HasProForm (key : String) : Prop :=
  ∃ p r o s1 s2 s3,
    key.data = [p, r, o, '-'] ++ s1 ++ ['-'] ++ s2 ++ ['-'] ++ s3 ∧
    (p = 'P' ∨ p = 'p') ∧ (r = 'R' ∨ r = 'r') ∧ (o = 'O' ∨ o = 'o') ∧
    IsSegment s1 ∧ IsSegment s2 ∧ IsSegment s3


/-! ## License state, deep links and reconciliation with the server -/

/-- The object returned by `get-license-status` (main.js lines 195-201). -/
structure LicenseStatus where
  isPro : Bool
  licenseKey : String
  activatedDate : Option String
  deriving DecidableEq, Repr

/-- Handler `get-license-status`: the three license keys of the store with their
defaults `false`, `''` and `null`. -/
def getLicenseStatus (st : AppState) : LicenseStatus :=
  { isPro := st.store.isPro.getD false,
    licenseKey := st.store.licenseKey.getD "",
    activatedDate := st.store.activatedDate }

/-- The three `store.set` calls shared by `deactivate-license` (lines 226-228) and the
revocation branch of `checkLicenseWithServer` (lines 379-381). -/
def clearLicense (s : Store) : Store :=
  { s with isPro := some false, licenseKey := some "", activatedDate := none }

/-- Handler `deactivate-license` (lines 225-230): returns `true`. -/
def deactivateLicense (st : AppState) : AppState × Bool :=
  ({ st with store := clearLicense st.store }, true)

/-- What `handleDeepLink` reads from `new URL(url)`: the host name and
`searchParams.get('key')`, `none` for the `null` of an absent parameter. -/
structure ParsedUrl where
  hostname : String
  key : Option String
  deriving DecidableEq, Repr

/-- The function `handleDeepLink` (lines 334-361). `parsed` is the outcome of
`new URL(url)`, `none` when it throws (the `catch` logs and returns). The call
`ipcMain.emit('activate-license', null, key)` reaches no listener, the handler being
registered with `ipcMain.handle`, and is left out; the validation and the writes of
lines 343-353 follow. -/
def handleDeepLink (st : AppState) (parsed : Option ParsedUrl) (iso : String) : AppState :=
  match parsed with
  | none => st
  | some url =>
    if url.hostname == "activate" then
      match url.key with
      | none => st
      | some key =>
        if key != "" then
          let isValidFormat := licensePattern.test key
          let isValidKey := validLicenses.contains (toUpperCase key) || isValidFormat
          if isValidKey then
            { st with store := { st.store with
                isPro := some true,
                licenseKey := some (toUpperCase key),
                activatedDate := some iso } }
          else st
        else st
    else st

/-- A value produced by `JSON.parse`. A number is kept as an integer: only whether it
is zero matters below. -/
inductive Json where
  | null
  | bool (b : Bool)
  | num (n : Int)
  | str (s : String)
  | arr (items : List Json)
  | obj (fields : List (String × Json))

/-- JavaScript truthiness of a parsed value; `none` is `undefined`. -/
def truthy : Option Json → Bool
  | none => false
  | some .null => false
  | some (.bool b) => b
  | some (.num n) => n != 0
  | some (.str s) => s != ""
  | some (.arr _) => true
  | some (.obj _) => true

/-- The value of the last field with the given name, as `JSON.parse` keeps the last of
repeated names. -/
def lookupField (name : String) : List (String × Json) → Option Json
  | [] => none
  | (k, v) :: rest =>
    match lookupField name rest with
    | some w => some w
    | none => if k == name then some v else none

/-- The property read `json.revoked`: `none` when it throws (on `null`), otherwise the
value or `undefined`. -/
def readRevoked : Json → Option (Option Json)
  | .null => none
  | .obj fields => some (lookupField "revoked" fields)
  | _ => some none

/-- How the request of `checkLicenseWithServer` ends: it fails (the `error` event, or
`lib.get` throws), or a body arrives, on which `JSON.parse` throws (`none`) or returns
a value. -/
inductive LicenseReply where
  | transportError
  | body (parsed : Option Json)

/-- The callbacks of lines 371-392 applied to the state at the time the reply comes. -/
def onLicenseReply (st : AppState) : LicenseReply → AppState
  | .transportError => st
  | .body none => st
  | .body (some json) =>
    match readRevoked json with
    | none => st
    | some revoked =>
      if truthy revoked then { st with store := clearLicense st.store } else st

/-- The function `checkLicenseWithServer` (lines 364-396) with the reply of the server
as an argument: nothing is requested when no key is stored. -/
def checkLicenseWithServer (st : AppState) (reply : LicenseReply) : AppState :=
  let key := st.store.licenseKey.getD ""
  if key == "" then st else onLicenseReply st reply

/-- The body of the endpoint `GET /license/:key` of the server for a key it does not
know (server/index.js line 194). -/
def notFoundBody (key : String) : Json :=
  .obj [("key", .str key), ("isPro", .bool false)]

/-- The body of the endpoint `GET /license/:key` for a known key (line 195). -/
def foundBody (key email createdAt : String) (revoked : Bool) : Json :=
  .obj [("key", .str key), ("isPro", .bool true), ("email", .str email),
        ("revoked", .bool revoked), ("createdAt", .str createdAt)]

/-- A state with an activated license, for the examples. -/
def proState : AppState :=
  { clipboardHistory := pinnedAndPlain,
    store := { Store.empty with
      clipboardHistory := some pinnedAndPlain, isPro := some true,
      licenseKey := some "PRO-AB12-CD34-EF56", activatedDate := some "2024-01-01T00:00:00.000Z" } }

/-! ## The clipboard watcher -/

/-- The characters `String.prototype.trim` removes: the WhiteSpace and LineTerminator
code points of ECMAScript. -/
def isWhiteSpace (c : Char) : Bool :=
  let n := c.toNat
  n == 9 || n == 10 || n == 11 || n == 12 || n == 13 || n == 32 || n == 160 ||
  n == 5760 || (8192 ≤ n && n ≤ 8202) || n == 8232 || n == 8233 || n == 8239 ||
  n == 8287 || n == 12288 || n == 65279

/-- `String.prototype.trim`: white space removed from both ends. -/
def trim (s : String) : String :=
  String.mk ((s.data.dropWhile isWhiteSpace).reverse.dropWhile isWhiteSpace).reverse

/-- The state of `startClipboardWatcher`: the main-process state and the closure
variable `previousText` (line 21). -/
structure Watcher where
  app : AppState
  previousText : String
  deriving DecidableEq, Repr

/-- The guard of line 26:
`currentText && currentText !== previousText && currentText.trim() !== ''`. -/
def isNewText (previousText currentText : String) : Bool :=
  currentText != "" && currentText != previousText && trim currentText != ""

/-- One run of the interval callback (lines 23-67) on the text read from the
clipboard: when the guard holds `previousText` is updated and the text recorded. -/
def watcherTick (w : Watcher) (currentText : String) (now : Nat) (iso : String) : Watcher :=
  if isNewText w.previousText currentText then
    { app := recordNew w.app currentText now iso, previousText := currentText }
  else w

/-- The watcher started on the clipboard value `startup` (line 21). -/
def startClipboardWatcher (app : AppState) (startup : String) : Watcher :=
  { app := app, previousText := startup }

/-- A poll tick: the text read, `Date.now()` and `toISOString()`. -/
abbrev Tick := String × Nat × String

/-- For a sequence of ticks, whether each of them recorded an entry (entered the body
of the `if` of line 26), first tick first. -/
def recordedFlags (w : Watcher) : List Tick → List Bool
  | [] => []
  | t :: rest =>
    isNewText w.previousText t.1 :: recordedFlags (watcherTick w t.1 t.2.1 t.2.2) rest

/-- The watcher after a sequence of ticks. -/
def runWatcher (w : Watcher) (ticks : List Tick) : Watcher :=
  ticks.foldl (fun acc t => watcherTick acc t.1 t.2.1 t.2.2) w

/-- The watcher together with the text on the operating system clipboard. -/
structure Desktop where
  watcher : Watcher
  clipboardText : String
  deriving DecidableEq, Repr

/-- Handler `copy-to-clipboard` (lines 151-154): `clipboard.writeText(content)`,
returns `true`. -/
def copyToClipboard (d : Desktop) (content : String) : Desktop × Bool :=
  ({ d with clipboardText := content }, true)

/-- A poll tick reading the clipboard of the desktop. -/
def pollTick (d : Desktop) (now : Nat) (iso : String) : Desktop :=
  { d with watcher := watcherTick d.watcher d.clipboardText now iso }

/-- A desktop for the examples: "b" copied after "a", both recorded, "b" still on the
clipboard. -/
def twoCopiesDesktop : Desktop :=
  { watcher :=
      { app :=
          { clipboardHistory :=
              [ { id := 2, content := "b", type := "text", timestamp := "t2", pinned := false },
                { id := 1, content := "a", type := "text", timestamp := "t1", pinned := false } ],
            store := Store.empty },
        previousText := "b" },
    clipboardText := "b" }

/-- A sequence of `recordNew` calls, first call first; each call is given by the content,
`Date.now()` and `toISOString()`. -/
def recordAll (st : AppState) (records : List Tick) : AppState :=
  records.foldl (fun acc r => recordNew acc r.1 r.2.1 r.2.2) st

/-- The entry `recordNew` builds for a call. -/
def entryOf (r : Tick) : ClipboardEntry :=
  newItem r.1 r.2.1 r.2.2

/-- For the examples: 21 calls with the contents "0" to "20". -/
def twentyOneRecords : List Tick :=
  (List.range 21).map (fun i => (toString i, 100 + i, "t"))

/-- The unpinned entries appear most recent first: of two unpinned entries the one that
stands first has the greater id (`Date.now()` at its creation). -/
def RecentFirst (h : List ClipboardEntry) : Prop :=
  (h.filter (fun item => !item.pinned)).Pairwise (fun a b => b.id < a.id)

/-- Whether the trim of lines 53-55 fires on a collection: its unpinned entries are more
than the limit. -/
def trimFires (h : List ClipboardEntry) (limit : Int) : Bool :=
  decide ((unpinnedCount h : Int) > limit)

/-- A state followed along a run of operations, with the last clock value read and the
ids of the entries that were pinned at a `recordNew` whose trim fired: that trim put
them in front of the unpinned entries. -/
structure Followed where
  st : AppState
  clock : Nat
  moved : List Nat

/-- An entry that no firing trim has moved while it was pinned: it is unpinned, or its id
is not among the moved ones. -/
def inPlace (moved : List Nat) (item : ClipboardEntry) : Bool :=
  !item.pinned || !moved.contains item.id

/-- One operation on a followed state. The state changes as `applyOp` says. The result is
`none` for the two steps left out of the run: a `recordNew` whose clock value is not
greater than the last one read, and a `togglePin` that unpins an entry a firing trim has
moved. -/
def followOp (s : Followed) : HistoryOp → Option Followed
  | .recordNew content now iso =>
    if s.clock < now then
      some
        { st := recordNew s.st content now iso,
          clock := now,
          moved :=
            if trimFires (newItem content now iso :: dropExisting s.st.clipboardHistory content)
                (maxItems s.st.store) then
              ((recordNew s.st content now iso).clipboardHistory.filter
                (fun item => item.pinned)).map (fun item => item.id) ++ s.moved
            else s.moved }
    else none
  | .deleteItem id => some { s with st := (deleteItem s.st id).1 }
  | .togglePin id =>
    match s.st.clipboardHistory.find? (fun item => item.id == id) with
    | some item =>
      if item.pinned && s.moved.contains id then none
      else some { s with st := (togglePin s.st id).1 }
    | none => some { s with st := (togglePin s.st id).1 }
  | .clearHistory => some { s with st := (clearHistory s.st).1 }

/-- A sequence of operations on a followed state, first operation first; `none` as soon
as one step is left out. -/
def followOps (s : Followed) : List HistoryOp → Option Followed
  | [] => some s
  | op :: rest =>
    match followOp s op with
    | some next => followOps next rest
    | none => none

/-- The start of a run: the empty collection, the clock at 0, nothing moved. -/
def followStart (store : Store) : Followed :=
  { st := { clipboardHistory := [], store := store }, clock := 0, moved := [] }

/-- For the examples, in the free tier: 20 contents recorded at the clock values 1 to
20, the oldest entry pinned, two more contents recorded (the second makes the trim fire)
and the pinned entry unpinned again. -/
def pinTrimUnpinOps : List HistoryOp :=
  (List.range 20).map (fun i => HistoryOp.recordNew (toString (i + 1)) (i + 1) "t")
  ++ [ .togglePin 1, .recordNew "21" 21 "t", .recordNew "22" 22 "t", .togglePin 1 ]

/-- For the examples, in the free tier: 20 contents recorded at the clock values 1 to
20, the oldest entry pinned, one more content recorded (20 unpinned entries, the trim
does not fire) and the pinned entry unpinned again: 21 unpinned entries. -/
def pinUnpinInOrderOps : List HistoryOp :=
  (List.range 20).map (fun i => HistoryOp.recordNew (toString (i + 1)) (i + 1) "t")
  ++ [ .togglePin 1, .recordNew "21" 21 "t", .togglePin 1 ]

/-! ## The license server -/

/-- A hexadecimal digit as `Buffer.toString('hex')` writes it (lower case). -/
def hexDigit (n : Nat) : Char :=
  if n < 10 then Char.ofNat (48 + n) else Char.ofNat (87 + n)

/-- The two hexadecimal digits of a byte; of a larger number, those of its low byte. -/
def hexByte (b : Nat) : List Char :=
  [hexDigit (b / 16 % 16), hexDigit (b % 16)]

/-- The helper `rnd` of `generateLicenseKey` (server/index.js line 50) on the three
bytes `crypto.randomBytes(3)` returned:
`toString('hex').toUpperCase().slice(0, 5)`. -/
def rnd (bytes : Nat × Nat × Nat) : String :=
  String.mk ((toUpperCase (String.mk
    (hexByte bytes.1 ++ hexByte bytes.2.1 ++ hexByte bytes.2.2))).data.take 5)

/-- The function `generateLicenseKey` (server/index.js lines 49-52); the arguments are
the bytes drawn by its four calls of `rnd`. -/
def generateLicenseKey (r1 r2 r3 r4 : Nat × Nat × Nat) : String :=
  "PRO-" ++ rnd r1 ++ "-" ++ rnd r2 ++ "-" ++ rnd r3 ++ "-" ++ rnd r4

/-- What `new URL` yields for the link of the success page (server/index.js line 182),
`minimalistic-clipboard://activate?key=` followed by `encodeURIComponent(key)`: the host
`activate` and, decoded again by `searchParams.get`, the key. -/
def successPageLink (key : String) : ParsedUrl :=
  { hostname := "activate", key := some key }

/-! ## Settings -/

/-- The object exchanged by `get-settings` and `save-settings`; `maxHistorySize` is
whatever integer the settings form computed with `parseInt`. -/
structure Settings where
  maxHistorySize : Int
  globalHotkey : String
  deriving DecidableEq, Repr

/-- Handler `get-settings` (main.js lines 177-182). -/
def getSettings (st : AppState) : Settings :=
  { maxHistorySize := st.store.maxHistorySize.getD 100,
    globalHotkey := st.store.globalHotkey.getD "CommandOrControl+Shift+V" }

/-- Handler `save-settings` (lines 184-192): both fields are stored as they come, the
shortcut is registered again (outside the state kept here), `true` is returned. -/
def saveSettings (st : AppState) (settings : Settings) : AppState × Bool :=
  ({ st with store := { st.store with
        maxHistorySize := some settings.maxHistorySize,
        globalHotkey := some settings.globalHotkey } }, true)

/-- A collection for the examples: the content "c" twice, once unpinned and once
pinned. -/
def unpinnedAndPinnedSame : List ClipboardEntry :=
  [ { id := 2, content := "c", type := "text", timestamp := "t2", pinned := false },
    { id := 1, content := "c", type := "text", timestamp := "t1", pinned := true } ]

/-- A state for the examples: a Pro license, the stored limit 0, and the content "c"
recorded and pinned before the limit was saved. -/
def zeroLimitPinnedState : AppState :=
  { clipboardHistory :=
      [ { id := 1, content := "c", type := "text", timestamp := "t1", pinned := true } ],
    store := { Store.empty with isPro := some true, maxHistorySize := some 0 } }

/-! ## Sequences of license operations -/

/-- The operations that write the license keys of the store: the two handlers, a deep
link, a reconciliation run whose reply comes at once, and the reply of an earlier
request coming after other operations. -/
inductive LicenseOp where
  | activateLicense (key : String) (iso : String)
  | deactivateLicense
  | deepLink (parsed : Option ParsedUrl) (iso : String)
  | checkLicenseWithServer (reply : LicenseReply)
  | lateReply (reply : LicenseReply)

/-- One license operation applied to the state. -/
def applyLicenseOp (st : AppState) : LicenseOp → AppState
  | .activateLicense key iso => (activateLicense st key iso).1
  | .deactivateLicense => (deactivateLicense st).1
  | .deepLink parsed iso => handleDeepLink st parsed iso
  | .checkLicenseWithServer reply => checkLicenseWithServer st reply
  | .lateReply reply => onLicenseReply st reply

/-- The state after a sequence of license operations, first operation first. -/
def runLicenseOps (st : AppState) (ops : List LicenseOp) : AppState :=
  ops.foldl applyLicenseOp st

/-- The license status is coherent: `isPro` holds exactly when a key is stored and
exactly when an activation date is stored, and a stored key is its own upper-case form
and passes the validation of `activate-license`. -/
def LicenseConsistent (s : LicenseStatus) : Prop :=
  (s.isPro = true ↔ s.licenseKey ≠ "") ∧
  (s.isPro = true ↔ s.activatedDate ≠ none) ∧
  (s.licenseKey ≠ "" → toUpperCase s.licenseKey = s.licenseKey ∧ isValidKey s.licenseKey = true)

/-! ## Lemmas on the array primitives -/

theorem dropExisting_eq_eraseP (h : List ClipboardEntry) (c : String) :
    dropExisting h c = h.eraseP (fun item => item.content == c) := by
  unfold dropExisting
  induction h with
  | nil => simp [findIndex]
  | cons x xs ih =>
    by_cases hx : (x.content == c) = true
    · simp [findIndex, hx, splice1]
    · simp only [findIndex, hx, List.eraseP_cons]
      cases hf : findIndex (fun item => item.content == c) xs with
      | none => simp [hf] at ih ⊢; exact ih
      | some i => simp [hf, splice1] at ih ⊢; exact ih

theorem dropExisting_sublist (h : List ClipboardEntry) (c : String) :
    (dropExisting h c).Sublist h := by
  rw [dropExisting_eq_eraseP]; exact List.eraseP_sublist h

theorem mem_dropExisting_of_ne {h : List ClipboardEntry} {c : String} {e : ClipboardEntry}
    (he : e ∈ h) (hne : e.content ≠ c) : e ∈ dropExisting h c := by
  rw [dropExisting_eq_eraseP]
  induction h with
  | nil => cases he
  | cons x xs ih =>
    by_cases hx : (x.content == c) = true
    · have hstep : List.eraseP (fun item => item.content == c) (x :: xs) = xs := by
        simp [List.eraseP_cons, hx]
      rw [hstep]
      rcases List.mem_cons.1 he with rfl | h1
      · exact absurd (by simpa using hx) hne
      · exact h1
    · have hstep : List.eraseP (fun item => item.content == c) (x :: xs)
          = x :: List.eraseP (fun item => item.content == c) xs := by
        simp [List.eraseP_cons, hx]
      rw [hstep]
      rcases List.mem_cons.1 he with rfl | h1
      · exact List.mem_cons_self _ _
      · exact List.mem_cons_of_mem _ (ih h1)

theorem slice0_sublist {α : Type} (l : List α) (k : Int) : (slice0 l k).Sublist l := by
  unfold slice0; split <;> exact List.take_sublist _ _

theorem slice0_length_le {α : Type} (l : List α) (k : Int) (hk : 0 ≤ k) :
    ((slice0 l k).length : Int) ≤ k := by
  unfold slice0
  rw [if_neg (not_lt.2 hk), List.length_take]
  have : ((min k.toNat l.length : Nat) : Int) ≤ (k.toNat : Int) := by
    exact_mod_cast Nat.min_le_left _ _
  rw [Int.toNat_of_nonneg hk] at this
  exact this

theorem filter_unpinned_trim (h : List ClipboardEntry) (limit : Int)
    (hgt : ((h.filter (fun item => !item.pinned)).length : Int) > limit) :
    (trimToCapacity h limit).filter (fun item => !item.pinned)
      = slice0 (h.filter (fun item => !item.pinned)) limit := by
  unfold trimToCapacity
  simp only [hgt, if_true, List.filter_append]
  have h1 : List.filter (fun item => !item.pinned) (List.filter (fun item => item.pinned) h) = [] := by
    rw [List.filter_eq_nil_iff]
    intro a ha
    simp [(List.mem_filter.1 ha).2]
  have h2 : List.filter (fun item => !item.pinned)
      (slice0 (List.filter (fun item => !item.pinned) h) limit)
      = slice0 (List.filter (fun item => !item.pinned) h) limit := by
    rw [List.filter_eq_self]
    intro a ha
    exact (List.mem_filter.1 ((slice0_sublist _ _).subset ha)).2
  rw [h1, h2, List.nil_append]

theorem unpinnedCount_trim_le (h : List ClipboardEntry) (limit : Int) (hk : 0 ≤ limit) :
    (unpinnedCount (trimToCapacity h limit) : Int) ≤ limit := by
  by_cases hgt : ((h.filter (fun item => !item.pinned)).length : Int) > limit
  · unfold unpinnedCount
    rw [filter_unpinned_trim h limit hgt]
    exact slice0_length_le _ _ hk
  · unfold unpinnedCount trimToCapacity
    simp only [hgt, if_false]
    exact not_lt.1 hgt

theorem mem_trim_of_pinned {h : List ClipboardEntry} {limit : Int} {e : ClipboardEntry}
    (he : e ∈ h) (hp : e.pinned = true) : e ∈ trimToCapacity h limit := by
  unfold trimToCapacity
  simp only
  split
  · exact List.mem_append_left _ (List.mem_filter.2 ⟨he, hp⟩)
  · exact he

theorem trim_perm_sublist (h : List ClipboardEntry) (limit : Int) :
    ∃ l, (trimToCapacity h limit).Sublist l ∧ l.Perm h := by
  unfold trimToCapacity
  simp only
  split
  · exact ⟨_, List.Sublist.append_left (slice0_sublist _ _) _,
      List.filter_append_perm (fun item => item.pinned) h⟩
  · exact ⟨h, List.Sublist.refl h, List.Perm.refl h⟩

theorem noDup_trim {h : List ClipboardEntry} (limit : Int) (hn : NoDupContent h) :
    NoDupContent (trimToCapacity h limit) := by
  obtain ⟨l, hs, hp⟩ := trim_perm_sublist h limit
  unfold NoDupContent at hn ⊢
  exact ((hp.map _).nodup_iff.2 hn).sublist (hs.map _)

theorem not_content_mem_dropExisting {h : List ClipboardEntry} (c : String)
    (hn : NoDupContent h) : ∀ e ∈ dropExisting h c, e.content ≠ c := by
  rw [dropExisting_eq_eraseP]
  unfold NoDupContent at hn
  induction h with
  | nil => intro e he; cases he
  | cons x xs ih =>
    rw [List.map_cons, List.nodup_cons] at hn
    by_cases hx : (x.content == c) = true
    · have hstep : List.eraseP (fun item => item.content == c) (x :: xs) = xs := by
        simp [List.eraseP_cons, hx]
      rw [hstep]
      have hxc : x.content = c := by simpa using hx
      intro e he hec
      exact hn.1 (List.mem_map.2 ⟨e, he, by rw [hec, hxc]⟩)
    · have hstep : List.eraseP (fun item => item.content == c) (x :: xs)
          = x :: List.eraseP (fun item => item.content == c) xs := by
        simp [List.eraseP_cons, hx]
      rw [hstep]
      intro e he
      rcases List.mem_cons.1 he with rfl | h1
      · simpa using hx
      · exact ih hn.2 e h1

theorem noDup_recordNewList {h : List ClipboardEntry} (limit : Int) (c : String) (now : Nat)
    (iso : String) (hn : NoDupContent h) : NoDupContent (recordNewList h limit c now iso) := by
  unfold recordNewList
  apply noDup_trim
  unfold NoDupContent at hn ⊢
  rw [List.map_cons, List.nodup_cons]
  constructor
  · intro hmem
    obtain ⟨e, he, hec⟩ := List.mem_map.1 hmem
    exact not_content_mem_dropExisting c hn e he hec
  · exact hn.sublist ((dropExisting_sublist h c).map _)

theorem map_content_flipFirst (id : Nat) (h : List ClipboardEntry) :
    (flipFirst id h).map (fun item => item.content) = h.map (fun item => item.content) := by
  induction h with
  | nil => rfl
  | cons x xs ih =>
    unfold flipFirst
    split
    · rfl
    · simp only [List.map_cons, ih]

theorem noDup_applyOp {st : AppState} (op : HistoryOp) (hn : NoDupContent st.clipboardHistory) :
    NoDupContent (applyOp st op).clipboardHistory := by
  cases op with
  | recordNew content now iso => exact noDup_recordNewList _ _ _ _ hn
  | deleteItem id =>
    unfold NoDupContent at hn ⊢
    exact hn.sublist (List.Sublist.map _ (List.filter_sublist _))
  | togglePin id =>
    simp only [applyOp, togglePin]
    split
    · unfold NoDupContent at hn ⊢
      simp only [map_content_flipFirst]
      exact hn
    · exact hn
  | clearHistory => exact List.nodup_nil

theorem noDup_runOps (ops : List HistoryOp) :
    ∀ st : AppState, NoDupContent st.clipboardHistory →
      NoDupContent (runOps st ops).clipboardHistory := by
  induction ops with
  | nil => intro st hn; exact hn
  | cons op rest ih => intro st hn; exact ih _ (noDup_applyOp op hn)

/-! ## The claims -/

/-- C1, as stated, fails: with `isPro = true` and a stored `maxHistorySize` of `-1`
the limit is `-1`, `slice(0, -1)` drops the last of the three unpinned entries and
two unpinned entries remain, which is more than `maxItems`. -/
theorem C1_counterexample :
    maxItems negativeLimitState.store = -1 ∧
    unpinnedCount (recordNew negativeLimitState "c" 3 "t3").clipboardHistory = 2 ∧
    ¬ ((unpinnedCount (recordNew negativeLimitState "c" 3 "t3").clipboardHistory : Int)
        ≤ maxItems negativeLimitState.store) := by
  decide

/-- C1 (amended): for every state (any collection, compliant or not), every recorded
content and clock reading, when the limit `maxItems` (20 without a Pro license, the
stored `maxHistorySize`, 100 when unset, with one) is not negative, the number of
unpinned entries after `recordNew` is at most `maxItems`, in memory and in the store. -/
theorem C1_recordNew_unpinned_le_maxItems (st : AppState) (content : String) (now : Nat)
    (iso : String) (hlimit : 0 ≤ maxItems st.store) :
    (unpinnedCount (recordNew st content now iso).clipboardHistory : Int) ≤ maxItems st.store ∧
    (recordNew st content now iso).store.clipboardHistory
      = some (recordNew st content now iso).clipboardHistory := by
  exact ⟨unpinnedCount_trim_le _ _ hlimit, rfl⟩

/-- Witness of C1 (amended): the free tier, a collection that starts over the limit. -/
theorem C1_recordNew_unpinned_le_maxItems_witness :
    0 ≤ maxItems overfullFreeState.store ∧
    (unpinnedCount (recordNew overfullFreeState "new" 500 "t5").clipboardHistory : Int)
      ≤ maxItems overfullFreeState.store :=
  ⟨by decide, (C1_recordNew_unpinned_le_maxItems overfullFreeState "new" 500 "t5" (by decide)).1⟩

/-- C2: the capacity trim (and the whole of `recordNew`) never drops a pinned entry whose
content differs from the recorded one: such an entry is still in the collection after
`recordNew`, as the same record (same id, still pinned), in memory and in the store. -/
theorem C2_recordNew_keeps_pinned (st : AppState) (content : String) (now : Nat) (iso : String)
    (e : ClipboardEntry) (hmem : e ∈ st.clipboardHistory) (hpinned : e.pinned = true)
    (hcontent : e.content ≠ content) :
    e ∈ (recordNew st content now iso).clipboardHistory ∧
    (∃ e2 ∈ (recordNew st content now iso).clipboardHistory,
        e2.id = e.id ∧ e2.content = e.content ∧ e2.pinned = true) ∧
    (recordNew st content now iso).store.clipboardHistory
      = some (recordNew st content now iso).clipboardHistory := by
  have hin : e ∈ (recordNew st content now iso).clipboardHistory :=
    mem_trim_of_pinned (List.mem_cons_of_mem _ (mem_dropExisting_of_ne hmem hcontent)) hpinned
  exact ⟨hin, ⟨e, hin, rfl, rfl, hpinned⟩, rfl⟩

/-- Witness of C2: the pinned entry of the overfull free-tier collection survives a
`recordNew` that trims. -/
theorem C2_recordNew_keeps_pinned_witness :
    ({ id := 7, content := "keep", type := "text", timestamp := "t0", pinned := true }
        : ClipboardEntry) ∈ (recordNew overfullFreeState "new" 500 "t5").clipboardHistory :=
  (C2_recordNew_keeps_pinned overfullFreeState "new" 500 "t5"
    { id := 7, content := "keep", type := "text", timestamp := "t0", pinned := true }
    (by decide) rfl (by decide)).1

/-- C3: in every state reached from an empty collection (whatever the store holds) by a
sequence of `recordNew`, `deleteItem`, `togglePin` and `clearHistory` operations, no two
entries of the collection have the same content. -/
theorem C3_reachable_noDupContent (store : Store) (ops : List HistoryOp) :
    NoDupContent (runOps { clipboardHistory := [], store := store } ops).clipboardHistory :=
  noDup_runOps ops _ List.nodup_nil


theorem no_content_dropExisting_of_count {h : List ClipboardEntry} {c : String}
    (hc : (h.filter (fun item => item.content == c)).length ≤ 1) :
    ∀ e ∈ dropExisting h c, e.content ≠ c := by
  rw [dropExisting_eq_eraseP]
  induction h with
  | nil => intro e he; cases he
  | cons x xs ih =>
    by_cases hx : (x.content == c) = true
    · have hstep : List.eraseP (fun item => item.content == c) (x :: xs) = xs := by
        simp [List.eraseP_cons, hx]
      rw [hstep]
      simp only [List.filter_cons, hx, if_true, List.length_cons] at hc
      have hnil : xs.filter (fun item => item.content == c) = [] :=
        List.length_eq_zero.1 (by omega)
      intro e he hec
      have : e ∈ xs.filter (fun item => item.content == c) :=
        List.mem_filter.2 ⟨he, by simpa using hec⟩
      rw [hnil] at this
      cases this
    · have hstep : List.eraseP (fun item => item.content == c) (x :: xs)
          = x :: List.eraseP (fun item => item.content == c) xs := by
        simp [List.eraseP_cons, hx]
      rw [hstep]
      simp only [List.filter_cons, hx, if_false] at hc
      intro e he
      rcases List.mem_cons.1 he with rfl | h1
      · simpa using hx
      · exact ih hc e h1

theorem slice0_cons_of_pos {α : Type} (a : α) (l : List α) (k : Int) (hk : 1 ≤ k) :
    slice0 (a :: l) k = a :: l.take (k.toNat - 1) := by
  unfold slice0
  rw [if_neg (by omega)]
  obtain ⟨n, hn⟩ : ∃ n, k.toNat = n + 1 := ⟨k.toNat - 1, by omega⟩
  rw [hn, List.take_succ_cons, Nat.add_sub_cancel]

theorem recordNewList_shape (h : List ClipboardEntry) (limit : Int) (c : String) (now : Nat)
    (iso : String) (hlimit : 1 ≤ limit) :
    ∃ pins rest, recordNewList h limit c now iso = pins ++ newItem c now iso :: rest ∧
      (∀ p ∈ pins, p.pinned = true ∧ p ∈ dropExisting h c) ∧
      (∀ e ∈ rest, e ∈ dropExisting h c) ∧
      ((unpinnedCount h : Int) < limit → pins = []) := by
  unfold recordNewList trimToCapacity
  have hnew : (newItem c now iso).pinned = false := rfl
  have hfp : List.filter (fun item => item.pinned) (newItem c now iso :: dropExisting h c)
      = List.filter (fun item => item.pinned) (dropExisting h c) := by
    rw [List.filter_cons_of_neg (by simp [hnew])]
  have hfu : List.filter (fun item => !item.pinned) (newItem c now iso :: dropExisting h c)
      = newItem c now iso :: List.filter (fun item => !item.pinned) (dropExisting h c) := by
    rw [List.filter_cons_of_pos (by simp [hnew])]
  simp only [hfp, hfu]
  split
  · rename_i hfire
    refine ⟨_, _, by rw [slice0_cons_of_pos _ _ _ hlimit], ?_, ?_, ?_⟩
    · intro p hp
      exact ⟨(List.mem_filter.1 hp).2, (List.mem_filter.1 hp).1⟩
    · intro e he
      exact (List.mem_filter.1 ((List.take_sublist _ _).subset he)).1
    · intro hlt
      exfalso
      have hsub : (List.filter (fun item => !item.pinned) (dropExisting h c)).length
          ≤ unpinnedCount h :=
        ((dropExisting_sublist h c).filter _).length_le
      rw [List.length_cons] at hfire
      push_cast at hfire
      omega
  · exact ⟨[], dropExisting h c, rfl, fun p hp => absurd hp (List.not_mem_nil p),
      fun e he => he, fun _ => rfl⟩

/-- C4, as stated, fails on both counts. In the free tier at its limit (20 unpinned
entries and a pinned one) the trim fires and moves the pinned entry to the front, so the
first element after `recordNew` is the pinned entry, not the new one. And in a
collection holding a content twice only the first occurrence is removed, so the new
entry is not the only one with that content. -/
theorem C4_counterexample :
    ((recordNew fullFreeState "new" 500 "t5").clipboardHistory.head?
        = some { id := 7, content := "keep", type := "text", timestamp := "t0", pinned := true } ∧
      (recordNew fullFreeState "new" 500 "t5").clipboardHistory.head?
        ≠ some (newItem "new" 500 "t5")) ∧
    (recordNew twiceSameState "x" 3 "t3").clipboardHistory
      = [ newItem "x" 3 "t3",
          { id := 1, content := "x", type := "text", timestamp := "t1", pinned := false } ] := by
  decide

/-- C4 (amended): for every collection in which at most one entry has the recorded
content and every store whose limit `maxItems` is at least 1, after `recordNew` the
newly created entry (that content, id and timestamp read from the clock, not pinned) is
in the collection, only pinned entries with another content stand before it, no other
entry has its content, and it is the first element whenever the unpinned entries before
the call were fewer than `maxItems` (the trim does not fire). -/
theorem C4_recordNew_new_entry_position (st : AppState) (content : String) (now : Nat)
    (iso : String) (hlimit : 1 ≤ maxItems st.store)
    (honce : (st.clipboardHistory.filter (fun item => item.content == content)).length ≤ 1) :
    ∃ pins rest,
      (recordNew st content now iso).clipboardHistory
        = pins ++ { id := now, content := content, type := "text", timestamp := iso,
                    pinned := false } :: rest ∧
      (∀ p ∈ pins, p.pinned = true ∧ p.content ≠ content) ∧
      (∀ e ∈ rest, e.content ≠ content) ∧
      ((unpinnedCount st.clipboardHistory : Int) < maxItems st.store → pins = []) := by
  obtain ⟨pins, rest, heq, hpins, hrest, hhead⟩ :=
    recordNewList_shape st.clipboardHistory (maxItems st.store) content now iso hlimit
  have hno := no_content_dropExisting_of_count honce
  exact ⟨pins, rest, heq, fun p hp => ⟨(hpins p hp).1, hno p (hpins p hp).2⟩,
    fun e he => hno e (hrest e he), hhead⟩

/-- Witness of C4 (amended): the free tier at its limit, a content not yet recorded. -/
theorem C4_recordNew_new_entry_position_witness :
    ∃ pins rest,
      (recordNew fullFreeState "new" 500 "t5").clipboardHistory
        = pins ++ { id := 500, content := "new", type := "text", timestamp := "t5",
                    pinned := false } :: rest ∧
      (∀ p ∈ pins, p.pinned = true ∧ p.content ≠ "new") ∧
      (∀ e ∈ rest, e.content ≠ "new") ∧
      ((unpinnedCount fullFreeState.clipboardHistory : Int) < maxItems fullFreeState.store
        → pins = []) :=
  C4_recordNew_new_entry_position fullFreeState "new" 500 "t5" (by decide) (by decide)


theorem flipFirst_flipFirst (id : Nat) (h : List ClipboardEntry) :
    flipFirst id (flipFirst id h) = h := by
  induction h with
  | nil => rfl
  | cons x xs ih =>
    by_cases hx : (x.id == id) = true
    · obtain ⟨i, c, ty, ts, p⟩ := x
      simp only [flipFirst, hx, if_true, Bool.not_not]
    · simp only [flipFirst, hx, if_false, ih, Bool.false_eq_true]

theorem find?_id_flipFirst_isSome (id : Nat) (h : List ClipboardEntry) :
    ((flipFirst id h).find? (fun item => item.id == id)).isSome
      = (h.find? (fun item => item.id == id)).isSome := by
  induction h with
  | nil => rfl
  | cons x xs ih =>
    by_cases hx : (x.id == id) = true
    · simp [flipFirst, hx, List.find?_cons]
    · simp only [flipFirst, hx, if_false, List.find?_cons, Bool.false_eq_true]
      simpa [hx] using ih

theorem flipFirst_of_absent (id : Nat) (h : List ClipboardEntry)
    (habs : ∀ e ∈ h, e.id ≠ id) : flipFirst id h = h := by
  induction h with
  | nil => rfl
  | cons x xs ih =>
    have hx : ¬ (x.id == id) = true := by simpa using habs x (List.mem_cons_self _ _)
    simp only [flipFirst, hx, if_false, Bool.false_eq_true]
    rw [ih (fun e he => habs e (List.mem_cons_of_mem _ he))]

theorem togglePin_collection (st : AppState) (id : Nat) :
    (togglePin st id).1.clipboardHistory = flipFirst id st.clipboardHistory ∧
    (togglePin st id).2 = flipFirst id st.clipboardHistory := by
  unfold togglePin
  cases hf : st.clipboardHistory.find? (fun item => item.id == id) with
  | some e => exact ⟨rfl, rfl⟩
  | none =>
    have habs : ∀ e ∈ st.clipboardHistory, e.id ≠ id := by
      intro e he
      simpa using (List.find?_eq_none.1 hf) e he
    simp only [flipFirst_of_absent id _ habs, and_self]

theorem map_payload_flipFirst (id : Nat) (h : List ClipboardEntry) :
    (flipFirst id h).map ClipboardEntry.payload = h.map ClipboardEntry.payload := by
  induction h with
  | nil => rfl
  | cons x xs ih =>
    unfold flipFirst
    split
    · rfl
    · simp only [List.map_cons, ih]

theorem flipFirst_spec (id : Nat) (h : List ClipboardEntry) :
    (∀ e ∈ h, e.id ≠ id) ∧ flipFirst id h = h ∨
    ∃ before item after, h = before ++ item :: after ∧ item.id = id ∧
      (∀ e ∈ before, e.id ≠ id) ∧
      flipFirst id h = before ++ { item with pinned := !item.pinned } :: after := by
  induction h with
  | nil => exact Or.inl ⟨fun e he => absurd he (List.not_mem_nil e), rfl⟩
  | cons x xs ih =>
    by_cases hx : (x.id == id) = true
    · refine Or.inr ⟨[], x, xs, rfl, by simpa using hx,
        fun e he => absurd he (List.not_mem_nil e), ?_⟩
      simp only [flipFirst, hx, if_true, List.nil_append]
    · have hne : x.id ≠ id := by simpa using hx
      rcases ih with ⟨habs, heq⟩ | ⟨before, item, after, hsplit, hid, hbefore, heq⟩
      · refine Or.inl ⟨?_, ?_⟩
        · intro e he
          rcases List.mem_cons.1 he with rfl | h1
          · exact hne
          · exact habs e h1
        · simp only [flipFirst, hx, if_false, heq, Bool.false_eq_true]
      · refine Or.inr ⟨x :: before, item, after, by rw [hsplit]; rfl, hid, ?_, ?_⟩
        · intro e he
          rcases List.mem_cons.1 he with rfl | h1
          · exact hne
          · exact hbefore e h1
        · simp only [flipFirst, hx, if_false, heq, Bool.false_eq_true, List.cons_append]

/-- C5: for every state, `clearHistory` leaves the in-memory collection empty and
persists an empty `clipboardHistory`; no entry, pinned or not, survives. It returns
`true` and leaves the other keys of the store as they were. -/
theorem C5_clearHistory_empties (st : AppState) :
    (clearHistory st).1.clipboardHistory = [] ∧
    (clearHistory st).1.store.clipboardHistory = some [] ∧
    (∀ e : ClipboardEntry, e.pinned = true → e ∉ (clearHistory st).1.clipboardHistory) ∧
    (clearHistory st).2 = true ∧
    (clearHistory st).1.store = { st.store with clipboardHistory := some [] } :=
  ⟨rfl, rfl, fun e _ he => absurd he (List.not_mem_nil e), rfl, rfl⟩

/-- C6 fails on the code: the confirmation dialog of Clear All promises that pinned
items will be kept, yet `clearHistory` applied to a collection with a pinned entry
leaves nothing: the pinned entry is in the collection before and not after, neither in
memory nor in the store. -/
theorem C6_clearHistory_drops_pinned :
    (({ id := 1, content := "a", type := "text", timestamp := "t1", pinned := true }
        : ClipboardEntry) ∈ pinnedAndPlainState.clipboardHistory) ∧
    (({ id := 1, content := "a", type := "text", timestamp := "t1", pinned := true }
        : ClipboardEntry) ∉ (clearHistory pinnedAndPlainState).1.clipboardHistory) ∧
    (clearHistory pinnedAndPlainState).1.store.clipboardHistory = some [] := by
  decide

/-- C7: `togglePin` is its own inverse. For every state and id, after two calls of
`togglePin(id)` the collection in memory, and the array the second call returns, are
the collection before the first call; so the pinned flag of the matching entry is back
at its original value, and after one call it is the negation of the original. -/
theorem C7_togglePin_twice (st : AppState) (id : Nat) :
    (togglePin (togglePin st id).1 id).1.clipboardHistory = st.clipboardHistory ∧
    (togglePin (togglePin st id).1 id).2 = st.clipboardHistory ∧
    ((togglePin (togglePin st id).1 id).1.clipboardHistory.find?
        (fun item => item.id == id)).map (fun item => item.pinned)
      = (st.clipboardHistory.find? (fun item => item.id == id)).map (fun item => item.pinned) ∧
    ((togglePin st id).1.clipboardHistory.find?
        (fun item => item.id == id)).map (fun item => item.pinned)
      = (st.clipboardHistory.find? (fun item => item.id == id)).map (fun item => !item.pinned) := by
  have h1 := (togglePin_collection st id).1
  have h2 := togglePin_collection (togglePin st id).1 id
  rw [h1, flipFirst_flipFirst] at h2
  refine ⟨h2.1, h2.2, by rw [h2.1], ?_⟩
  rw [h1]
  generalize st.clipboardHistory = h
  induction h with
  | nil => rfl
  | cons x xs ih =>
    by_cases hx : (x.id == id) = true
    · simp [flipFirst, hx, List.find?_cons]
    · simp only [flipFirst, hx, if_false, List.find?_cons, Bool.false_eq_true]
      exact ih

/-- C8: for every state and id, `deleteItem(id)` returns, keeps in memory and persists
the collection filtered to the entries whose id differs from `id`: the entries with that
id are gone, every other entry is kept unchanged and in its original relative order,
and when no entry has that id the collection is returned unchanged. -/
theorem C8_deleteItem_removes_matching (st : AppState) (id : Nat) :
    (deleteItem st id).2 = st.clipboardHistory.filter (fun item => item.id != id) ∧
    (deleteItem st id).1.clipboardHistory = (deleteItem st id).2 ∧
    (deleteItem st id).1.store.clipboardHistory = some (deleteItem st id).2 ∧
    (deleteItem st id).2.Sublist st.clipboardHistory ∧
    (∀ e, e ∈ (deleteItem st id).2 ↔ e ∈ st.clipboardHistory ∧ e.id ≠ id) ∧
    ((∀ e ∈ st.clipboardHistory, e.id ≠ id) → (deleteItem st id).2 = st.clipboardHistory) := by
  refine ⟨rfl, rfl, rfl, List.filter_sublist _, ?_, ?_⟩
  · intro e
    simp only [deleteItem, List.mem_filter, bne_iff_ne]
  · intro habs
    simp only [deleteItem]
    rw [List.filter_eq_self]
    intro e he
    simpa [bne_iff_ne] using habs e he

/-- C9: for every state and id, `togglePin(id)` changes nothing but the pinned flag of
the first entry with that id. The id, content, type and timestamp of every entry, and so
the length and the order, are unchanged; either no entry has the id and the collection
is returned unchanged (and nothing is written), or the collection splits around the
first entry with the id, whose flag is negated while all entries before and after it
are the same records. -/
theorem C9_togglePin_frame (st : AppState) (id : Nat) :
    (togglePin st id).1.clipboardHistory = (togglePin st id).2 ∧
    (togglePin st id).2.map ClipboardEntry.payload
      = st.clipboardHistory.map ClipboardEntry.payload ∧
    (togglePin st id).2.length = st.clipboardHistory.length ∧
    ((∀ e ∈ st.clipboardHistory, e.id ≠ id) ∧ togglePin st id = (st, st.clipboardHistory) ∨
     ∃ before item after, st.clipboardHistory = before ++ item :: after ∧ item.id = id ∧
       (∀ e ∈ before, e.id ≠ id) ∧
       (togglePin st id).2 = before ++ { item with pinned := !item.pinned } :: after ∧
       (togglePin st id).1.store.clipboardHistory = some (togglePin st id).2) := by
  obtain ⟨h1, h2⟩ := togglePin_collection st id
  have hmap := map_payload_flipFirst id st.clipboardHistory
  refine ⟨by rw [h1, h2], by rw [h2, hmap], ?_, ?_⟩
  · rw [h2]
    simpa using congrArg List.length hmap
  · rcases flipFirst_spec id st.clipboardHistory with ⟨habs, _⟩ | ⟨before, item, after, hs, hid, hb, heq⟩
    · left
      refine ⟨habs, ?_⟩
      unfold togglePin
      have hnone : st.clipboardHistory.find? (fun item => item.id == id) = none :=
        List.find?_eq_none.2 (fun e he => by simpa using habs e he)
      rw [hnone]
    · right
      refine ⟨before, item, after, hs, hid, hb, by rw [h2, heq], ?_⟩
      unfold togglePin
      have hsome : (st.clipboardHistory.find? (fun item => item.id == id)).isSome = true := by
        rw [List.find?_isSome]
        exact ⟨item, by rw [hs]; simp, by simpa using hid⟩
      cases hf : st.clipboardHistory.find? (fun item => item.id == id) with
      | none => rw [hf] at hsome; cases hsome
      | some e => rfl


/-! ## Lemmas on the license check -/

theorem char_eq_of_toNat_eq {c d : Char} (h : c.toNat = d.toNat) : c = d := by
  rw [← Char.ofNat_toNat c, ← Char.ofNat_toNat d, h]

theorem toNat_ofNat_small : ∀ m, m < 128 → (Char.ofNat m).toNat = m := by
  decide

theorem upperChar_toNat (c : Char) :
    (upperChar c).toNat = if 97 ≤ c.toNat ∧ c.toNat ≤ 122 then c.toNat - 32 else c.toNat := by
  unfold upperChar
  split
  · rename_i h
    exact toNat_ofNat_small _ (by omega)
  · rfl

theorem upperChar_lt_128 {c : Char} (h : c.toNat < 128) : (upperChar c).toNat < 128 := by
  rw [upperChar_toNat]
  split <;> omega

theorem specialUpper_lookup_ascii : ∀ n, n < 128 → specialUpper.lookup n = none := by
  decide

theorem upperCaseOf_ascii {c : Char} (h : c.toNat < 128) : upperCaseOf c = [upperChar c] := by
  unfold upperCaseOf
  rw [specialUpper_lookup_ascii _ h]

theorem flatMap_upperCaseOf_ascii (l : List Char) (h : ∀ c ∈ l, c.toNat < 128) :
    l.flatMap upperCaseOf = l.map upperChar := by
  induction l with
  | nil => rfl
  | cons a rest ih =>
    rw [List.flatMap_cons, upperCaseOf_ascii (h a (List.mem_cons_self _ _)),
      ih (fun c hc => h c (List.mem_cons_of_mem _ hc))]
    rfl

theorem toUpperCase_data_ascii (s : String) (h : ∀ c ∈ s.data, c.toNat < 128) :
    (toUpperCase s).data = s.data.map upperChar :=
  flatMap_upperCaseOf_ascii s.data h

theorem upperChar_eq_iff (c l : Char) (hl : 65 ≤ l.toNat ∧ l.toNat ≤ 90) :
    upperChar c = l ↔ c = l ∨ c = Char.ofNat (l.toNat + 32) := by
  constructor
  · intro h
    have hn := congrArg Char.toNat h
    rw [upperChar_toNat] at hn
    split at hn
    · right
      apply char_eq_of_toNat_eq
      rw [toNat_ofNat_small _ (by omega)]
      omega
    · left
      exact char_eq_of_toNat_eq hn
  · rintro (rfl | rfl)
    · apply char_eq_of_toNat_eq
      rw [upperChar_toNat, if_neg (by omega)]
    · apply char_eq_of_toNat_eq
      rw [upperChar_toNat, toNat_ofNat_small _ (by omega), if_pos (by omega)]
      omega

theorem upperChar_eq_dash (c : Char) : upperChar c = '-' ↔ c = '-' := by
  have hd : ('-' : Char).toNat = 45 := by decide
  constructor
  · intro h
    have hn := congrArg Char.toNat h
    rw [upperChar_toNat, hd] at hn
    split at hn
    · omega
    · exact char_eq_of_toNat_eq (by rw [hn, hd])
  · rintro rfl
    decide

theorem upperAlnum_test_iff (c : Char) :
    upperAlnum.test true c = true ↔ IsAlphanumeric c := by
  have hA : ('A' : Char).toNat = 65 := by decide
  have hZ : ('Z' : Char).toNat = 90 := by decide
  have h0 : ('0' : Char).toNat = 48 := by decide
  have h9 : ('9' : Char).toNat = 57 := by decide
  simp only [upperAlnum, Atom.test, if_true, List.any_cons, List.any_nil, Bool.or_false,
    Bool.or_eq_true, decide_eq_true_eq, hA, hZ, h0, h9, upperChar_toNat, IsAlphanumeric]
  split <;> omega

theorem mem_matchRep (ic : Bool) (a : Atom) (hi : Nat) :
    ∀ (lo : Nat) (s r : List Char),
      r ∈ matchRep ic a lo hi s ↔
        ∃ w, s = w ++ r ∧ lo ≤ w.length ∧ w.length ≤ hi ∧ ∀ c ∈ w, a.test ic c = true := by
  induction hi with
  | zero =>
    intro lo s r
    simp only [matchRep]
    constructor
    · intro h
      split at h
      · rename_i h0
        rw [List.mem_singleton] at h
        exact ⟨[], by rw [h]; rfl, by simp [h0], by simp, fun c hc => absurd hc (List.not_mem_nil c)⟩
      · cases h
    · rintro ⟨w, hs, hlo, hhi, _⟩
      have hw : w = [] := List.length_eq_zero.1 (by omega)
      subst hw
      rw [if_pos (by simpa using hlo)]
      simp [hs]
  | succ n ih =>
    intro lo s r
    simp only [matchRep, List.mem_append]
    constructor
    · rintro (h | h)
      · cases s with
        | nil => cases h
        | cons c cs =>
          simp only at h
          split at h
          · rename_i htest
            obtain ⟨w, hs, hlo, hhi, hall⟩ := (ih (lo - 1) cs r).1 h
            refine ⟨c :: w, by rw [hs]; rfl, by simp only [List.length_cons]; omega,
              by simp only [List.length_cons]; omega, ?_⟩
            intro x hx
            rcases List.mem_cons.1 hx with rfl | hx
            · exact htest
            · exact hall x hx
          · cases h
      · split at h
        · rename_i h0
          rw [List.mem_singleton] at h
          exact ⟨[], by rw [h]; rfl, by simp [h0], by simp,
            fun c hc => absurd hc (List.not_mem_nil c)⟩
        · cases h
    · rintro ⟨w, hs, hlo, hhi, hall⟩
      cases w with
      | nil =>
        right
        rw [if_pos (by simpa using hlo)]
        simp [hs]
      | cons c w =>
        left
        subst hs
        simp only [List.cons_append]
        rw [if_pos (hall c (List.mem_cons_self _ _))]
        refine (ih (lo - 1) (w ++ r) r).2 ⟨w, rfl, ?_, ?_, ?_⟩
        · simp only [List.length_cons] at hlo; omega
        · simp only [List.length_cons] at hhi; omega
        · exact fun x hx => hall x (List.mem_cons_of_mem _ hx)

theorem mem_matchPieces_cons (ic : Bool) (p : Piece) (ps : List Piece) (s r : List Char) :
    r ∈ matchPieces ic (p :: ps) s ↔
      ∃ w mid, s = w ++ mid ∧ PieceMatches ic p w ∧ r ∈ matchPieces ic ps mid := by
  simp only [matchPieces, List.mem_flatMap, mem_matchRep, PieceMatches]
  constructor
  · rintro ⟨mid, ⟨w, hs, h1, h2, h3⟩, hr⟩
    exact ⟨w, mid, hs, ⟨h1, h2, h3⟩, hr⟩
  · rintro ⟨w, mid, hs, ⟨h1, h2, h3⟩, hr⟩
    exact ⟨mid, ⟨w, hs, h1, h2, h3⟩, hr⟩

theorem mem_matchPieces_nil (ic : Bool) (s r : List Char) :
    r ∈ matchPieces ic [] s ↔ r = s := by
  simp only [matchPieces, List.mem_singleton]

theorem pieceMatches_lit_upper (l : Char) (hl : 65 ≤ l.toNat ∧ l.toNat ≤ 90) (w : List Char) :
    PieceMatches true ⟨.lit l, 1, 1⟩ w ↔
      ∃ c, w = [c] ∧ (c = l ∨ c = Char.ofNat (l.toNat + 32)) := by
  have hself : upperChar l = l := (upperChar_eq_iff l l hl).2 (Or.inl rfl)
  simp only [PieceMatches, Atom.test, if_true, beq_iff_eq, hself]
  constructor
  · rintro ⟨h1, h2, h3⟩
    match w, h1, h2, h3 with
    | [c], _, _, h3 =>
      exact ⟨c, rfl, (upperChar_eq_iff c l hl).1 (h3 c (List.mem_singleton.2 rfl))⟩
  · rintro ⟨c, rfl, hc⟩
    refine ⟨by simp, by simp, ?_⟩
    intro x hx
    rw [List.mem_singleton.1 hx]
    exact (upperChar_eq_iff c l hl).2 hc

theorem pieceMatches_dash (w : List Char) :
    PieceMatches true ⟨.lit '-', 1, 1⟩ w ↔ w = ['-'] := by
  have hself : upperChar '-' = '-' := by decide
  simp only [PieceMatches, Atom.test, if_true, beq_iff_eq, hself]
  constructor
  · rintro ⟨h1, h2, h3⟩
    match w, h1, h2, h3 with
    | [c], _, _, h3 =>
      rw [(upperChar_eq_dash c).1 (h3 c (List.mem_singleton.2 rfl))]
  · rintro rfl
    refine ⟨by simp, by simp, ?_⟩
    intro x hx
    rw [List.mem_singleton.1 hx]
    decide

theorem pieceMatches_segment (w : List Char) :
    PieceMatches true ⟨upperAlnum, 2, 8⟩ w ↔ IsSegment w := by
  simp only [PieceMatches, IsSegment, upperAlnum_test_iff]


theorem isValidFormat_iff (key : String) : isValidFormat key = true ↔ HasProForm key := by
  have hp : Char.ofNat (('P' : Char).toNat + 32) = 'p' := by decide
  have hr : Char.ofNat (('R' : Char).toNat + 32) = 'r' := by decide
  have ho : Char.ofNat (('O' : Char).toNat + 32) = 'o' := by decide
  have hmem : isValidFormat key = true ↔ [] ∈ matchPieces true licensePattern.pieces key.data := by
    simp only [isValidFormat, RegExp.test, List.any_eq_true, List.isEmpty_iff]
    constructor
    · rintro ⟨x, hx, rfl⟩; exact hx
    · intro h; exact ⟨[], h, rfl⟩
  rw [hmem]
  simp only [licensePattern, mem_matchPieces_cons, mem_matchPieces_nil,
    pieceMatches_lit_upper 'P' (by decide), pieceMatches_lit_upper 'R' (by decide),
    pieceMatches_lit_upper 'O' (by decide), pieceMatches_dash, pieceMatches_segment,
    hp, hr, ho, HasProForm]
  constructor
  · rintro ⟨_, m1, h1, ⟨p, rfl, hP⟩, _, m2, rfl, ⟨r, rfl, hR⟩, _, m3, rfl, ⟨o, rfl, hO⟩,
      _, m4, rfl, rfl, s1, m5, rfl, hs1, _, m6, rfl, rfl, s2, m7, rfl, hs2,
      _, m8, rfl, rfl, s3, m9, rfl, hs3, rfl⟩
    exact ⟨p, r, o, s1, s2, s3, by simp [h1], hP, hR, hO, hs1, hs2, hs3⟩
  · rintro ⟨p, r, o, s1, s2, s3, hk, hP, hR, hO, hs1, hs2, hs3⟩
    exact ⟨[p], r :: o :: '-' :: (s1 ++ '-' :: (s2 ++ '-' :: s3)), by rw [hk]; simp,
      ⟨p, rfl, hP⟩,
      [r], o :: '-' :: (s1 ++ '-' :: (s2 ++ '-' :: s3)), rfl, ⟨r, rfl, hR⟩,
      [o], '-' :: (s1 ++ '-' :: (s2 ++ '-' :: s3)), rfl, ⟨o, rfl, hO⟩,
      ['-'], s1 ++ '-' :: (s2 ++ '-' :: s3), rfl, rfl,
      s1, '-' :: (s2 ++ '-' :: s3), rfl, hs1,
      ['-'], s2 ++ '-' :: s3, rfl, rfl,
      s2, '-' :: s3, rfl, hs2,
      ['-'], s3, rfl, rfl,
      s3, [], by simp, hs3, rfl⟩

/-- C10: for every key, `activateLicense(key)` returns `success = true` exactly when the
upper-cased key is one of the three allow-listed literals or the key has the form
`PRO-S1-S2-S3`, letters in either case, each segment made of 2 to 8 alphanumeric
characters. In particular `PRO-AB12-CD34-EF56` and `PRO-MC-2024-PREMIUM` succeed and
`not-a-key` fails; and a key that only upper-casing turns into an allow-listed literal,
such as `pro-mc-lifetime-key` written with dotless i, succeeds through the allow-list
although it has not the form. -/
theorem C10_activateLicense_success_iff (st : AppState) (key : String) (iso : String) :
    ((activateLicense st key iso).2.success = true ↔
      (toUpperCase key = "PRO-MC-2024-PREMIUM" ∨ toUpperCase key = "PRO-MC-LIFETIME-KEY" ∨
        toUpperCase key = "MC-UNLIMITED-2024") ∨ HasProForm key) ∧
    (activateLicense st "PRO-AB12-CD34-EF56" iso).2.success = true ∧
    (activateLicense st "PRO-MC-2024-PREMIUM" iso).2.success = true ∧
    (activateLicense st "not-a-key" iso).2.success = false ∧
    (activateLicense st dotlessLifetimeKey iso).2.success = true ∧
    toUpperCase dotlessLifetimeKey = "PRO-MC-LIFETIME-KEY" ∧
    ¬ HasProForm dotlessLifetimeKey := by
  have hsucc : ∀ k : String, (activateLicense st k iso).2.success = isValidKey k := by
    intro k
    unfold activateLicense
    split
    · rename_i h; rw [h]
    · rename_i h; simp only [Bool.not_eq_true] at h; rw [h]
  refine ⟨?_, ?_, ?_, ?_, ?_, by decide, ?_⟩
  · rw [hsucc, isValidKey, Bool.or_eq_true, isValidFormat_iff]
    simp [validLicenses]
  · rw [hsucc]; decide
  · rw [hsucc]; decide
  · rw [hsucc]; decide
  · rw [hsucc]; decide
  · rw [← isValidFormat_iff]; decide

/-! ## Claims on the license state -/

theorem activateLicense_eq (st : AppState) (key iso : String) :
    activateLicense st key iso =
      if isValidKey key then
        ({ st with store := { st.store with
              isPro := some true,
              licenseKey := some (toUpperCase key),
              activatedDate := some iso } },
         { success := true, message := "License activated successfully!" })
      else
        (st, { success := false,
               message := "Invalid license key. Please check and try again." }) := rfl

/-- C11: for every state and key, when `activateLicense(key)` succeeds the license
status read afterwards is `isPro = true`, `licenseKey` the upper-cased key and
`activatedDate` the timestamp read at the call, the history and the other keys of the
store being untouched; when it fails the whole state, and so `isPro`, `licenseKey` and
`activatedDate`, is exactly as before. Both outcomes occur; and for the allow-listed key
written in lower case with dotless i the key stored is the literal
`PRO-MC-LIFETIME-KEY`. -/
theorem C11_activateLicense_state (st : AppState) (key iso : String) :
    ((activateLicense st key iso).2.success = true →
      getLicenseStatus (activateLicense st key iso).1
        = { isPro := true, licenseKey := toUpperCase key, activatedDate := some iso } ∧
      (activateLicense st key iso).1.clipboardHistory = st.clipboardHistory ∧
      (activateLicense st key iso).1.store.clipboardHistory = st.store.clipboardHistory ∧
      (activateLicense st key iso).1.store.maxHistorySize = st.store.maxHistorySize ∧
      (activateLicense st key iso).1.store.globalHotkey = st.store.globalHotkey) ∧
    ((activateLicense st key iso).2.success = false →
      (activateLicense st key iso).1 = st ∧
      getLicenseStatus (activateLicense st key iso).1 = getLicenseStatus st) ∧
    (activateLicense st "PRO-AB12-CD34-EF56" iso).2.success = true ∧
    (activateLicense st "not-a-key" iso).2.success = false ∧
    getLicenseStatus (activateLicense st dotlessLifetimeKey iso).1
      = { isPro := true, licenseKey := "PRO-MC-LIFETIME-KEY", activatedDate := some iso } := by
  refine ⟨?_, ?_, ?_, ?_, ?_⟩
  · intro hs
    rw [activateLicense_eq] at hs ⊢
    split at hs
    · rename_i hv
      rw [if_pos hv]
      exact ⟨rfl, rfl, rfl, rfl, rfl⟩
    · cases hs
  · intro hs
    rw [activateLicense_eq] at hs ⊢
    split at hs
    · cases hs
    · rename_i hv
      rw [if_neg hv]
      exact ⟨rfl, rfl⟩
  · rw [activateLicense_eq, if_pos (by decide)]
  · rw [activateLicense_eq, if_neg (by decide)]
  · have hup : toUpperCase dotlessLifetimeKey = "PRO-MC-LIFETIME-KEY" := by decide
    rw [activateLicense_eq, if_pos (by decide)]
    simp only [getLicenseStatus, hup, Option.getD_some]

/-- C12: for every state with a stored (non-empty) key, reconciliation with a parsed
response whose `revoked` field is `true` leaves the state exactly as `deactivateLicense`
leaves it, and `deactivateLicense` leaves any state with `isPro = false`,
`licenseKey = ''` and `activatedDate = null`. -/
theorem C12_revoked_reply_deactivates (st : AppState) (json : Json)
    (hkey : st.store.licenseKey.getD "" ≠ "")
    (hrevoked : readRevoked json = some (some (.bool true))) :
    checkLicenseWithServer st (.body (some json)) = (deactivateLicense st).1 ∧
    getLicenseStatus (checkLicenseWithServer st (.body (some json)))
      = { isPro := false, licenseKey := "", activatedDate := none } ∧
    (∀ other : AppState, getLicenseStatus (deactivateLicense other).1
      = { isPro := false, licenseKey := "", activatedDate := none }) := by
  have h1 : checkLicenseWithServer st (.body (some json)) = (deactivateLicense st).1 := by
    unfold checkLicenseWithServer
    have hne : (st.store.licenseKey.getD "" == "") = false := by simpa using hkey
    simp only [hne, Bool.false_eq_true, if_false, onLicenseReply, hrevoked, truthy, if_true]
    rfl
  exact ⟨h1, by rw [h1]; rfl, fun _ => rfl⟩

/-- Witness of C12: the Pro state and the body the server sends for a revoked key. -/
theorem C12_revoked_reply_deactivates_witness :
    checkLicenseWithServer proState
        (.body (some (foundBody "PRO-AB12-CD34-EF56" "a@b.c" "2024-01-01" true)))
      = (deactivateLicense proState).1 :=
  (C12_revoked_reply_deactivates proState
    (foundBody "PRO-AB12-CD34-EF56" "a@b.c" "2024-01-01" true) (by decide) rfl).1

/-- C13, as stated, fails: the handler tests `json.revoked` for truthiness, so a parsed
response whose `revoked` field is the number 1, or the string "false", is not
`revoked = true` and still clears the license. -/
theorem C13_counterexample :
    readRevoked (.obj [("revoked", .num 1)]) ≠ some (some (.bool true)) ∧
    getLicenseStatus (checkLicenseWithServer proState (.body (some (.obj [("revoked", .num 1)]))))
      = { isPro := false, licenseKey := "", activatedDate := none } ∧
    getLicenseStatus (checkLicenseWithServer proState
        (.body (some (.obj [("revoked", .str "false")]))))
      = { isPro := false, licenseKey := "", activatedDate := none } ∧
    getLicenseStatus proState
      = { isPro := true, licenseKey := "PRO-AB12-CD34-EF56",
          activatedDate := some "2024-01-01T00:00:00.000Z" } := by
  refine ⟨?_, by decide, by decide, by decide⟩
  intro h
  have h2 : lookupField "revoked" [("revoked", Json.num 1)] = some (.num 1) := rfl
  simp only [readRevoked, h2, Option.some.injEq] at h
  cases h

/-- C13 (amended): reconciliation is fail-open. For every state, the state (and so
`isPro`, `licenseKey` and `activatedDate`) is unchanged when no key is stored whatever
the reply, when the request fails in transport, when the body cannot be parsed, when
reading `revoked` from the parsed value throws, and when the parsed response carries no
truthy `revoked` value; the last case covers `revoked = false` as the server sends it and
the not-found body. -/
theorem C13_reconciliation_fail_open (st : AppState) :
    (∀ reply, st.store.licenseKey.getD "" = "" → checkLicenseWithServer st reply = st) ∧
    checkLicenseWithServer st .transportError = st ∧
    checkLicenseWithServer st (.body none) = st ∧
    (∀ json, readRevoked json = none → checkLicenseWithServer st (.body (some json)) = st) ∧
    (∀ json revoked, readRevoked json = some revoked → truthy revoked = false →
      checkLicenseWithServer st (.body (some json)) = st) ∧
    (∀ key email createdAt,
      checkLicenseWithServer st (.body (some (foundBody key email createdAt false))) = st) ∧
    (∀ key, checkLicenseWithServer st (.body (some (notFoundBody key))) = st) := by
  have hgen : ∀ json revoked, readRevoked json = some revoked → truthy revoked = false →
      checkLicenseWithServer st (.body (some json)) = st := by
    intro json revoked h1 h2
    unfold checkLicenseWithServer
    simp only [onLicenseReply, h1, h2, Bool.false_eq_true, if_false, ite_self]
  refine ⟨?_, ?_, ?_, ?_, hgen, ?_, ?_⟩
  · intro reply hk
    unfold checkLicenseWithServer
    simp only [hk, beq_self_eq_true, if_true]
  · unfold checkLicenseWithServer
    simp only [onLicenseReply, ite_self]
  · unfold checkLicenseWithServer
    simp only [onLicenseReply, ite_self]
  · intro json h1
    unfold checkLicenseWithServer
    simp only [onLicenseReply, h1, ite_self]
  · intro key email createdAt
    exact hgen _ (some (.bool false)) (by simp [readRevoked, foundBody, lookupField]) rfl
  · intro key
    exact hgen _ none (by simp [readRevoked, notFoundBody, lookupField]) rfl

theorem handleDeepLink_activate (st : AppState) (key iso : String) :
    handleDeepLink st (some { hostname := "activate", key := some key }) iso
      = (activateLicense st key iso).1 := by
  rw [activateLicense_eq]
  simp only [handleDeepLink, beq_self_eq_true, if_true]
  by_cases hk : key = ""
  · subst hk
    have hv : isValidKey "" = false := by decide
    simp [hv]
  · have hne : (key != "") = true := by simpa using hk
    simp only [hne, if_true]
    by_cases hv : isValidKey key = true
    · have hv2 := hv
      unfold isValidKey isValidFormat at hv2
      rw [if_pos hv2, if_pos hv]
    · have hv2 := hv
      unfold isValidKey isValidFormat at hv2
      rw [if_neg hv2, if_neg hv]

/-- C14: for every state, key and clock reading, handling the deep link whose host is
`activate` and whose `key` parameter is that key leaves the whole state, and so `isPro`,
`licenseKey` and `activatedDate`, exactly as `activateLicense(key)` leaves it; a deep
link with another host, without a `key` parameter, or that does not parse, leaves the
state unchanged. -/
theorem C14_deepLink_as_activateLicense (st : AppState) (key iso : String) :
    handleDeepLink st (some { hostname := "activate", key := some key }) iso
      = (activateLicense st key iso).1 ∧
    getLicenseStatus (handleDeepLink st (some { hostname := "activate", key := some key }) iso)
      = getLicenseStatus (activateLicense st key iso).1 ∧
    (∀ host k, host ≠ "activate" →
      handleDeepLink st (some { hostname := host, key := k }) iso = st) ∧
    (∀ host, handleDeepLink st (some { hostname := host, key := none }) iso = st) ∧
    handleDeepLink st none iso = st := by
  have h1 := handleDeepLink_activate st key iso
  refine ⟨h1, by rw [h1], ?_, ?_, rfl⟩
  · intro host k hh
    have hne : (host == "activate") = false := by simpa using hh
    simp only [handleDeepLink, hne, Bool.false_eq_true, if_false]
  · intro host
    simp only [handleDeepLink, ite_self]

/-! ## Claims on the clipboard watcher -/

theorem trim_eq_empty_of_all_whiteSpace (s : String)
    (h : s.data.all isWhiteSpace = true) : trim s = "" := by
  have hd : s.data.dropWhile isWhiteSpace = [] := by
    rw [List.dropWhile_eq_nil_iff]
    intro x hx
    exact List.all_eq_true.1 h x hx
  unfold trim
  rw [hd]
  rfl

theorem isNewText_true_iff (previousText currentText : String) :
    isNewText previousText currentText = true ↔
      currentText ≠ "" ∧ currentText ≠ previousText ∧ trim currentText ≠ "" := by
  simp only [isNewText, Bool.and_eq_true, bne_iff_ne, ne_eq, and_assoc]

theorem watcherTick_previousText (w : Watcher) (cur : String) (now : Nat) (iso : String) :
    (watcherTick w cur now iso).previousText = cur ∨ trim cur = "" := by
  unfold watcherTick
  by_cases hnew : isNewText w.previousText cur = true
  · rw [if_pos hnew]
    exact Or.inl rfl
  · rw [if_neg hnew]
    rw [isNewText_true_iff] at hnew
    by_cases h1 : cur = ""
    · right; rw [h1]; rfl
    · by_cases h2 : cur = w.previousText
      · left; exact h2.symm
      · by_cases h3 : trim cur = ""
        · exact Or.inr h3
        · exact absurd ⟨h1, h2, h3⟩ hnew

theorem recordedFlags_length (ticks : List Tick) :
    ∀ w : Watcher, (recordedFlags w ticks).length = ticks.length := by
  induction ticks with
  | nil => intro w; rfl
  | cons t rest ih => intro w; simp only [recordedFlags, List.length_cons, ih]

theorem recordedFlags_sound (ticks : List Tick) :
    ∀ (w : Watcher) (before : String), (w.previousText = before ∨ trim before = "") →
      ∀ i : Nat, (recordedFlags w ticks)[i]? = some true →
        ∃ cur prev : String, (ticks.map Prod.fst)[i]? = some cur ∧
          (before :: ticks.map Prod.fst)[i]? = some prev ∧ cur ≠ prev ∧ trim cur ≠ "" := by
  induction ticks with
  | nil => intro w before _ i h; simp [recordedFlags] at h
  | cons t rest ih =>
    intro w before hinv i h
    cases i with
    | zero =>
      simp only [recordedFlags, List.getElem?_cons_zero, Option.some.injEq] at h
      obtain ⟨_, h2, h3⟩ := (isNewText_true_iff _ _).1 h
      refine ⟨t.1, before, by simp, by simp, ?_, h3⟩
      rcases hinv with hp | hb
      · rw [← hp]; exact h2
      · intro heq
        rw [heq] at h3
        exact h3 hb
    | succ j =>
      simp only [recordedFlags, List.getElem?_cons_succ] at h
      obtain ⟨cur, prev, hc, hp, hne, ht⟩ :=
        ih (watcherTick w t.1 t.2.1 t.2.2) t.1 (watcherTick_previousText w t.1 t.2.1 t.2.2) j h
      exact ⟨cur, prev, by simpa using hc, by simpa using hp, hne, ht⟩

/-- C15: for every startup clipboard value and every sequence of ticks, a tick that
records an entry read a sample that differs from the sample of the tick just before it
(the startup value for the first tick) and is not empty after trimming; a tick whose
sample is made of white space only, or equals the sample before it, records nothing;
and a tick that records nothing leaves the watcher and the history as they were. -/
theorem C15_watcher_records_only_changes (app : AppState) (startup : String)
    (ticks : List Tick) :
    (∀ i : Nat, (recordedFlags (startClipboardWatcher app startup) ticks)[i]? = some true →
      ∃ cur prev : String, (ticks.map Prod.fst)[i]? = some cur ∧
        (startup :: ticks.map Prod.fst)[i]? = some prev ∧ cur ≠ prev ∧ trim cur ≠ "") ∧
    (∀ (i : Nat) (cur prev : String), (ticks.map Prod.fst)[i]? = some cur →
      (startup :: ticks.map Prod.fst)[i]? = some prev →
      (cur.data.all isWhiteSpace = true ∨ cur = prev) →
      (recordedFlags (startClipboardWatcher app startup) ticks)[i]? = some false) ∧
    (∀ (w : Watcher) (cur : String) (now : Nat) (iso : String),
      isNewText w.previousText cur = false → watcherTick w cur now iso = w) := by
  have hsound := recordedFlags_sound ticks (startClipboardWatcher app startup) startup
    (Or.inl rfl)
  refine ⟨hsound, ?_, ?_⟩
  · intro i cur prev hc hp hor
    have hlt : i < (recordedFlags (startClipboardWatcher app startup) ticks).length := by
      rw [recordedFlags_length]
      have := (List.getElem?_eq_some_iff.1 hc).1
      simpa using this
    cases hflag : (recordedFlags (startClipboardWatcher app startup) ticks)[i]? with
    | none =>
      rw [List.getElem?_eq_none_iff] at hflag
      omega
    | some b =>
      cases b with
      | false => rfl
      | true =>
        obtain ⟨cur2, prev2, hc2, hp2, hne, ht⟩ := hsound i hflag
        rw [hc] at hc2
        rw [hp] at hp2
        cases hc2
        cases hp2
        rcases hor with hws | heq
        · exact absurd (trim_eq_empty_of_all_whiteSpace cur hws) ht
        · exact absurd heq hne
  · intro w cur now iso hnew
    unfold watcherTick
    rw [hnew]
    rfl

/-- Witness of C15: started on "a", the ticks read white space, "a" again, "b", "b";
only the third records, and its sample "b" differs from the "a" read before it. -/
theorem C15_watcher_records_only_changes_witness :
    recordedFlags (startClipboardWatcher { clipboardHistory := [], store := Store.empty } "a")
        [("  ", 1, "t1"), ("a", 2, "t2"), ("b", 3, "t3"), ("b", 4, "t4")]
      = [false, false, true, false] ∧
    ∃ cur prev : String, ([("  ", 1, "t1"), ("a", 2, "t2"), ("b", 3, "t3"), ("b", 4, "t4")].map
          Prod.fst)[2]? = some cur ∧
      ("a" :: [("  ", 1, "t1"), ("a", 2, "t2"), ("b", 3, "t3"), ("b", 4, "t4")].map
          Prod.fst)[2]? = some prev ∧ cur ≠ prev ∧ trim cur ≠ "" :=
  ⟨by decide,
   (C15_watcher_records_only_changes { clipboardHistory := [], store := Store.empty } "a"
      [("  ", 1, "t1"), ("a", 2, "t2"), ("b", 3, "t3"), ("b", 4, "t4")]).1 2 (by decide)⟩


/-- C16, as stated, fails: `copy-to-clipboard` writes the clipboard and leaves
`previousText` alone. With "b" recorded after "a", copying "a" back (it has an entry)
makes the next tick see a text different from `previousText = "b"` and record it: the
entry of "a" with id 1 is replaced by a new one with id 3 at the head. -/
theorem C16_counterexample :
    (∃ e ∈ twoCopiesDesktop.watcher.app.clipboardHistory, e.content = "a") ∧
    (copyToClipboard twoCopiesDesktop "a").1.watcher = twoCopiesDesktop.watcher ∧
    (pollTick (copyToClipboard twoCopiesDesktop "a").1 3 "t3").watcher.app.clipboardHistory
      = [ { id := 3, content := "a", type := "text", timestamp := "t3", pinned := false },
          { id := 2, content := "b", type := "text", timestamp := "t2", pinned := false } ] ∧
    (pollTick (copyToClipboard twoCopiesDesktop "a").1 3 "t3").watcher.app.clipboardHistory
      ≠ twoCopiesDesktop.watcher.app.clipboardHistory := by
  decide

/-- C16 (amended): `copyToClipboard(content)` changes the clipboard only, neither the
history nor `previousText`. The next poll tick leaves the watcher, and so the collection
with its ids, timestamps and order, as before the copy when the content is the watcher's
`previousText` (the text it recorded last, or the startup value) or trims to the empty
string; for every other content, with or without an entry, that tick treats it as new:
it makes it the `previousText` and runs `recordNew(content)` on the state. -/
theorem C16_copy_then_tick (d : Desktop) (content : String) (now : Nat) (iso : String) :
    (copyToClipboard d content).1.watcher = d.watcher ∧
    (copyToClipboard d content).1.clipboardText = content ∧
    (content = d.watcher.previousText ∨ trim content = "" →
      (pollTick (copyToClipboard d content).1 now iso).watcher = d.watcher ∧
      (pollTick (copyToClipboard d content).1 now iso).watcher.app.clipboardHistory
        = d.watcher.app.clipboardHistory) ∧
    (content ≠ d.watcher.previousText → trim content ≠ "" →
      (pollTick (copyToClipboard d content).1 now iso).watcher
        = { app := recordNew d.watcher.app content now iso, previousText := content }) := by
  refine ⟨rfl, rfl, ?_, ?_⟩
  · intro h
    have hnew : isNewText d.watcher.previousText content = false := by
      rw [← Bool.not_eq_true, isNewText_true_iff]
      rintro ⟨_, h2, h3⟩
      rcases h with h | h
      · exact h2 h
      · exact h3 h
    have hsame : (pollTick (copyToClipboard d content).1 now iso).watcher = d.watcher := by
      simp only [pollTick, copyToClipboard, watcherTick, hnew, Bool.false_eq_true, if_false]
    exact ⟨hsame, by rw [hsame]⟩
  · intro h2 h3
    have h1 : content ≠ "" := by
      intro h
      rw [h] at h3
      exact h3 rfl
    have hnew : isNewText d.watcher.previousText content = true :=
      (isNewText_true_iff _ _).2 ⟨h1, h2, h3⟩
    simp only [pollTick, copyToClipboard, watcherTick, hnew, if_true]

/-- Witness of C16 (amended): copying back "b", the text recorded last, changes nothing
at the next tick. -/
theorem C16_copy_then_tick_witness :
    (pollTick (copyToClipboard twoCopiesDesktop "b").1 3 "t3").watcher
      = twoCopiesDesktop.watcher :=
  ((C16_copy_then_tick twoCopiesDesktop "b" 3 "t3").2.2.1 (Or.inl rfl)).1

/-- C17, as stated, fails for a negative limit: with limit `-1` the trim of two
unpinned entries keeps one, and the trim of that result keeps none. -/
theorem C17_counterexample :
    trimToCapacity negativeLimitState.clipboardHistory (-1)
      = [ { id := 2, content := "b", type := "text", timestamp := "t2", pinned := false } ] ∧
    trimToCapacity (trimToCapacity negativeLimitState.clipboardHistory (-1)) (-1) = [] ∧
    trimToCapacity (trimToCapacity negativeLimitState.clipboardHistory (-1)) (-1)
      ≠ trimToCapacity negativeLimitState.clipboardHistory (-1) := by
  decide

/-- C17 (amended): for every collection and every limit that is not negative, the trim
applied twice gives what it gives applied once; and for every limit, the trim of a
collection whose unpinned entries are at most the limit returns it unchanged. -/
theorem C17_trim_idempotent (h : List ClipboardEntry) (limit : Int) (hlimit : 0 ≤ limit) :
    trimToCapacity (trimToCapacity h limit) limit = trimToCapacity h limit ∧
    (∀ (g : List ClipboardEntry) (k : Int), (unpinnedCount g : Int) ≤ k →
      trimToCapacity g k = g) := by
  have hcompliant : ∀ (g : List ClipboardEntry) (k : Int), (unpinnedCount g : Int) ≤ k →
      trimToCapacity g k = g := by
    intro g k hle
    unfold trimToCapacity
    simp only
    rw [if_neg]
    unfold unpinnedCount at hle
    omega
  exact ⟨hcompliant _ _ (unpinnedCount_trim_le h limit hlimit), hcompliant⟩

/-- Witness of C17 (amended): the overfull free-tier collection and the limit 20. -/
theorem C17_trim_idempotent_witness :
    trimToCapacity (trimToCapacity overfullFreeState.clipboardHistory 20) 20
      = trimToCapacity overfullFreeState.clipboardHistory 20 :=
  (C17_trim_idempotent overfullFreeState.clipboardHistory 20 (by decide)).1


/-! ## Claims on sequences of `recordNew` -/

theorem take_cons_take {α : Type} (k : Nat) (a : α) (l : List α) :
    (a :: l.take k).take k = (a :: l).take k := by
  cases k with
  | zero => rfl
  | succ j =>
    simp only [List.take_succ_cons, List.take_take]
    rw [Nat.min_eq_left (Nat.le_succ j)]

theorem trim_all_unpinned (l : List ClipboardEntry) (limit : Int) (hlimit : 0 ≤ limit)
    (hall : ∀ e ∈ l, e.pinned = false) : trimToCapacity l limit = l.take limit.toNat := by
  have hp : l.filter (fun item => item.pinned) = [] := by
    rw [List.filter_eq_nil_iff]
    intro e he
    simp [hall e he]
  have hu : l.filter (fun item => !item.pinned) = l := by
    rw [List.filter_eq_self]
    intro e he
    simp [hall e he]
  unfold trimToCapacity
  simp only [hp, hu, List.nil_append]
  split
  · unfold slice0
    rw [if_neg (by omega)]
  · rename_i hle
    rw [List.take_of_length_le]
    omega

theorem dropExisting_of_absent (l : List ClipboardEntry) (c : String)
    (habs : ∀ e ∈ l, e.content ≠ c) : dropExisting l c = l := by
  rw [dropExisting_eq_eraseP]
  apply List.eraseP_of_forall_not
  intro e he
  simpa using habs e he

theorem recordAll_model (limit : Int) (hlimit : 0 ≤ limit) (rest : List Tick) :
    ∀ (st : AppState) (done : List Tick),
      ((done ++ rest).map Prod.fst).Nodup →
      maxItems st.store = limit →
      st.clipboardHistory = (done.reverse.map entryOf).take limit.toNat →
      (recordAll st rest).clipboardHistory
        = ((done ++ rest).reverse.map entryOf).take limit.toNat := by
  induction rest with
  | nil => intro st done _ _ h; simpa [recordAll] using h
  | cons r rest ih =>
    intro st done hnd hmax hst
    have hstep : (recordNew st r.1 r.2.1 r.2.2).clipboardHistory
        = ((done ++ [r]).reverse.map entryOf).take limit.toNat := by
      have habs : ∀ e ∈ st.clipboardHistory, e.content ≠ r.1 := by
        intro e he hc
        rw [hst] at he
        obtain ⟨q, hq, rfl⟩ := List.mem_map.1 ((List.take_sublist _ _).subset he)
        rw [List.mem_reverse] at hq
        rw [List.map_append, List.map_cons, List.nodup_append] at hnd
        have hq1 : q.1 = r.1 := hc
        exact hnd.2.2 (List.mem_map.2 ⟨q, hq, rfl⟩) (List.mem_cons.2 (Or.inl hq1))
      have hunp : ∀ e ∈ newItem r.1 r.2.1 r.2.2 :: st.clipboardHistory, e.pinned = false := by
        intro e he
        rcases List.mem_cons.1 he with rfl | he
        · rfl
        · rw [hst] at he
          obtain ⟨q, _, rfl⟩ := List.mem_map.1 ((List.take_sublist _ _).subset he)
          rfl
      simp only [recordNew, recordNewList, hmax]
      rw [dropExisting_of_absent _ _ habs, trim_all_unpinned _ _ hlimit hunp, hst,
        take_cons_take]
      simp [entryOf]
    have := ih (recordNew st r.1 r.2.1 r.2.2) (done ++ [r])
      (by simpa using hnd) (by rw [← hmax]; rfl) hstep
    simpa [recordAll] using this

set_option maxRecDepth 100000 in
/-- C18, as stated, fails once more contents are recorded than the limit: in the free
tier 21 distinct contents leave 20 entries, and the content recorded first has none. -/
theorem C18_counterexample :
    (twentyOneRecords.map Prod.fst).Nodup ∧
    (recordAll { clipboardHistory := [], store := Store.empty }
        twentyOneRecords).clipboardHistory.length = 20 ∧
    "0" ∈ twentyOneRecords.map Prod.fst ∧
    ¬ ∃ e ∈ (recordAll { clipboardHistory := [], store := Store.empty }
        twentyOneRecords).clipboardHistory, e.content = "0" := by
  decide

/-- C18 (amended): for every sequence of `recordNew` calls with pairwise distinct
contents applied to the empty collection, under a limit `maxItems` that is not negative,
the resulting collection is made of the entries of the `maxItems` most recent calls (of
all calls when they are not more than `maxItems`), one entry for each, most recently
recorded first. -/
theorem C18_recordAll_distinct (store : Store) (records : List Tick)
    (hdistinct : (records.map Prod.fst).Nodup) (hlimit : 0 ≤ maxItems store) :
    (recordAll { clipboardHistory := [], store := store } records).clipboardHistory
      = (records.reverse.map entryOf).take (maxItems store).toNat ∧
    ((records.length : Int) ≤ maxItems store →
      (recordAll { clipboardHistory := [], store := store } records).clipboardHistory
          = records.reverse.map entryOf ∧
      (recordAll { clipboardHistory := [], store := store } records).clipboardHistory.map
          (fun item => item.content) = (records.map Prod.fst).reverse) := by
  have h := recordAll_model (maxItems store) hlimit records
    { clipboardHistory := [], store := store } [] (by simpa using hdistinct) rfl (by simp)
  rw [List.nil_append] at h
  refine ⟨h, ?_⟩
  intro hlen
  have hall : (records.reverse.map entryOf).take (maxItems store).toNat
      = records.reverse.map entryOf := by
    apply List.take_of_length_le
    simp only [List.length_map, List.length_reverse]
    omega
  rw [h, hall]
  refine ⟨rfl, ?_⟩
  rw [List.map_map, ← List.map_reverse]
  rfl

/-- Witness of C18 (amended): three distinct contents in the free tier. -/
theorem C18_recordAll_distinct_witness :
    (recordAll { clipboardHistory := [], store := Store.empty }
        [("a", 1, "t1"), ("b", 2, "t2"), ("c", 3, "t3")]).clipboardHistory.map
        (fun item => item.content) = ["c", "b", "a"] :=
  ((C18_recordAll_distinct Store.empty [("a", 1, "t1"), ("b", 2, "t2"), ("c", 3, "t3")]
    (by decide) (by decide)).2 (by decide)).2


/-! ## Claims on the order of the unpinned entries -/

theorem mem_trim_subset {h : List ClipboardEntry} {limit : Int} {e : ClipboardEntry}
    (he : e ∈ trimToCapacity h limit) : e ∈ h := by
  obtain ⟨l, hs, hp⟩ := trim_perm_sublist h limit
  exact hp.subset (hs.subset he)

theorem filter_unpinned_trim_sublist (h : List ClipboardEntry) (limit : Int) :
    ((trimToCapacity h limit).filter (fun item => !item.pinned)).Sublist
      (h.filter (fun item => !item.pinned)) := by
  by_cases hgt : ((h.filter (fun item => !item.pinned)).length : Int) > limit
  · rw [filter_unpinned_trim h limit hgt]
    exact slice0_sublist _ _
  · unfold trimToCapacity
    simp only [hgt, if_false]
    exact List.Sublist.refl _

theorem id_mem_flipFirst (id : Nat) (h : List ClipboardEntry) :
    ∀ e ∈ flipFirst id h, ∃ e2 ∈ h, e2.id = e.id := by
  intro e he
  have hmap := map_payload_flipFirst id h
  have : e.payload ∈ (flipFirst id h).map ClipboardEntry.payload := List.mem_map.2 ⟨e, he, rfl⟩
  rw [hmap] at this
  obtain ⟨e2, h2, heq⟩ := List.mem_map.1 this
  exact ⟨e2, h2, congrArg Prod.fst heq⟩

theorem filter_sublist_of_imp {α : Type} (p q : α → Bool) (l : List α)
    (hpq : ∀ a ∈ l, p a = true → q a = true) : (l.filter p).Sublist (l.filter q) := by
  induction l with
  | nil => exact List.Sublist.refl _
  | cons a rest ih =>
    have ih2 := ih (fun x hx => hpq x (List.mem_cons_of_mem _ hx))
    by_cases hp : p a = true
    · have hq : q a = true := hpq a (List.mem_cons_self _ _) hp
      simp only [List.filter_cons, hp, hq, if_true]
      exact ih2.cons₂ _
    · simp only [List.filter_cons, hp, Bool.false_eq_true, if_false]
      split
      · exact ih2.cons _
      · exact ih2

theorem ids_inPlace_flipFirst_sublist (moved : List Nat) (id : Nat) (h : List ClipboardEntry)
    (hadm : ∀ item, h.find? (fun item => item.id == id) = some item →
      (item.pinned && moved.contains id) = false) :
    (((flipFirst id h).filter (inPlace moved)).map (fun item => item.id)).Sublist
      ((h.filter (inPlace moved)).map (fun item => item.id)) := by
  induction h with
  | nil => exact List.Sublist.refl _
  | cons x xs ih =>
    by_cases hx : (x.id == id) = true
    · have hxid : x.id = id := by simpa using hx
      have hx2 := hadm x (by simp [List.find?_cons, hx])
      simp only [flipFirst, hx, if_true]
      cases hp : x.pinned with
      | true =>
        have hnot : moved.contains x.id = false := by
          rw [hxid]
          simpa [hp] using hx2
        have h1 : inPlace moved x = true := by
          simp only [inPlace, hp, hnot, Bool.not_true, Bool.not_false, Bool.or_true]
        have h2 : inPlace moved { x with pinned := !true } = true := by simp [inPlace]
        simp only [List.filter_cons, h1, h2, if_true, List.map_cons]
        exact List.Sublist.refl _
      | false =>
        have h1 : inPlace moved x = true := by simp [inPlace, hp]
        simp only [List.filter_cons, h1, if_true, List.map_cons]
        split
        · exact List.Sublist.refl _
        · exact List.sublist_cons_self _ _
    · have hrest : ∀ item, xs.find? (fun item => item.id == id) = some item →
          (item.pinned && moved.contains id) = false := by
        intro item hitem
        apply hadm item
        simp only [List.find?_cons, hx]
        exact hitem
      simp only [flipFirst, hx, if_false, Bool.false_eq_true, List.filter_cons]
      split
      · simp only [List.map_cons]
        exact (ih hrest).cons₂ _
      · exact ih hrest

/-- What a followed run keeps true: no id exceeds the clock, and the entries in place
stand in decreasing order of id. -/
theorem followOp_invariant {s next : Followed} (op : HistoryOp)
    (hstep : followOp s op = some next)
    (hbound : ∀ e ∈ s.st.clipboardHistory, e.id ≤ s.clock)
    (hsorted : ((s.st.clipboardHistory.filter (inPlace s.moved)).map
      (fun item => item.id)).Pairwise (fun a b => b < a)) :
    next.st = applyOp s.st op ∧
    (∀ e ∈ next.st.clipboardHistory, e.id ≤ next.clock) ∧
    ((next.st.clipboardHistory.filter (inPlace next.moved)).map
      (fun item => item.id)).Pairwise (fun a b => b < a) := by
  cases op with
  | recordNew content now iso =>
    simp only [followOp] at hstep
    split at hstep
    · rename_i hlt
      cases hstep
      simp only
      have hmem : ∀ e ∈ (recordNew s.st content now iso).clipboardHistory,
          e = newItem content now iso ∨ e ∈ s.st.clipboardHistory := by
        intro e he
        rcases List.mem_cons.1 (mem_trim_subset he) with h1 | h1
        · exact Or.inl h1
        · exact Or.inr ((dropExisting_sublist _ _).subset h1)
      refine ⟨rfl, ?_, ?_⟩
      · intro e he
        rcases hmem e he with rfl | h1
        · exact Nat.le_refl _
        · exact Nat.le_of_lt (Nat.lt_of_le_of_lt (hbound e h1) hlt)
      · -- the entries in place after the step are among the new entry and those before
        have hbase : ((newItem content now iso ::
            (dropExisting s.st.clipboardHistory content).filter (inPlace s.moved)).map
              (fun item => item.id)).Pairwise (fun a b => b < a) := by
          rw [List.map_cons, List.pairwise_cons]
          constructor
          · intro b hb
            obtain ⟨e, he, rfl⟩ := List.mem_map.1 hb
            have he2 : e ∈ s.st.clipboardHistory :=
              (dropExisting_sublist _ _).subset (List.mem_filter.1 he).1
            exact Nat.lt_of_le_of_lt (hbound e he2) hlt
          · exact List.Pairwise.sublist
              (((dropExisting_sublist _ _).filter _).map _) hsorted
        have hcons : (newItem content now iso :: dropExisting s.st.clipboardHistory content).filter
            (inPlace s.moved)
            = newItem content now iso ::
              (dropExisting s.st.clipboardHistory content).filter (inPlace s.moved) := by
          simp [List.filter_cons, inPlace, newItem]
        by_cases hfire : trimFires
            (newItem content now iso :: dropExisting s.st.clipboardHistory content)
            (maxItems s.st.store) = true
        · rw [if_pos hfire]
          have hfilter : (recordNew s.st content now iso).clipboardHistory.filter
              (inPlace (((recordNew s.st content now iso).clipboardHistory.filter
                (fun item => item.pinned)).map (fun item => item.id) ++ s.moved))
              = (recordNew s.st content now iso).clipboardHistory.filter
                (fun item => !item.pinned) := by
            apply List.filter_congr
            intro e he
            cases hp : e.pinned with
            | false => simp [inPlace, hp]
            | true =>
              have hin : e.id ∈ ((recordNew s.st content now iso).clipboardHistory.filter
                  (fun item => item.pinned)).map (fun item => item.id) :=
                List.mem_map.2 ⟨e, List.mem_filter.2 ⟨he, hp⟩, rfl⟩
              simp [inPlace, hp, hin]
          rw [hfilter]
          have hsub1 := filter_unpinned_trim_sublist
            (newItem content now iso :: dropExisting s.st.clipboardHistory content)
            (maxItems s.st.store)
          have hsub2 := filter_sublist_of_imp (fun item : ClipboardEntry => !item.pinned)
            (inPlace s.moved)
            (newItem content now iso :: dropExisting s.st.clipboardHistory content)
            (fun a _ ha => by simp only [inPlace, ha, Bool.true_or])
          rw [hcons] at hsub2
          exact List.Pairwise.sublist ((hsub1.trans hsub2).map _) hbase
        · rw [if_neg hfire]
          have hsame : (recordNew s.st content now iso).clipboardHistory
              = newItem content now iso :: dropExisting s.st.clipboardHistory content := by
            have hnot : ¬ ((unpinnedCount
                (newItem content now iso :: dropExisting s.st.clipboardHistory content) : Int)
                > maxItems s.st.store) := by
              simpa [trimFires] using hfire
            unfold unpinnedCount at hnot
            simp only [recordNew, recordNewList, trimToCapacity]
            rw [if_neg hnot]
          rw [hsame, hcons]
          exact hbase
    · cases hstep
  | deleteItem id =>
    simp only [followOp, Option.some.injEq] at hstep
    subst hstep
    refine ⟨rfl, ?_, ?_⟩
    · intro e he
      exact hbound e (List.mem_filter.1 he).1
    · exact List.Pairwise.sublist (((List.filter_sublist _).filter _).map _) hsorted
  | togglePin id =>
    have hcoll := (togglePin_collection s.st id).1
    have hnext : next = { s with st := (togglePin s.st id).1 } ∧
        ∀ item, s.st.clipboardHistory.find? (fun item => item.id == id) = some item →
          (item.pinned && s.moved.contains id) = false := by
      simp only [followOp] at hstep
      split at hstep
      · rename_i item hfind
        split at hstep
        · cases hstep
        · rename_i hnot
          refine ⟨(Option.some.inj hstep).symm, ?_⟩
          intro item2 h2
          rw [hfind] at h2
          cases h2
          simpa using hnot
      · rename_i hfind
        refine ⟨(Option.some.inj hstep).symm, ?_⟩
        intro item2 h2
        rw [hfind] at h2
        cases h2
    obtain ⟨hnext, hadm⟩ := hnext
    subst hnext
    refine ⟨rfl, ?_, ?_⟩
    · intro e he
      simp only [hcoll] at he
      obtain ⟨e2, h2, heq⟩ := id_mem_flipFirst id _ e he
      rw [← heq]
      exact hbound e2 h2
    · simp only [hcoll]
      exact List.Pairwise.sublist (ids_inPlace_flipFirst_sublist s.moved id _ hadm) hsorted
  | clearHistory =>
    simp only [followOp, Option.some.injEq] at hstep
    subst hstep
    exact ⟨rfl, fun e he => absurd he (List.not_mem_nil e), List.Pairwise.nil⟩

theorem followOps_invariant (ops : List HistoryOp) :
    ∀ s last : Followed, followOps s ops = some last →
      (∀ e ∈ s.st.clipboardHistory, e.id ≤ s.clock) →
      ((s.st.clipboardHistory.filter (inPlace s.moved)).map
        (fun item => item.id)).Pairwise (fun a b => b < a) →
      last.st = runOps s.st ops ∧
      ((last.st.clipboardHistory.filter (inPlace last.moved)).map
        (fun item => item.id)).Pairwise (fun a b => b < a) := by
  induction ops with
  | nil =>
    intro s last hrun _ hsorted
    simp only [followOps, Option.some.injEq] at hrun
    subst hrun
    exact ⟨rfl, hsorted⟩
  | cons op rest ih =>
    intro s last hrun hbound hsorted
    simp only [followOps] at hrun
    cases hstep : followOp s op with
    | none => rw [hstep] at hrun; cases hrun
    | some next =>
      rw [hstep] at hrun
      obtain ⟨h1, h2, h3⟩ := followOp_invariant op hstep hbound hsorted
      obtain ⟨h4, h5⟩ := ih next last hrun h2 h3
      refine ⟨?_, h5⟩
      rw [h4, h1]
      rfl

theorem recentFirst_of_inPlace_sorted (moved : List Nat) (h : List ClipboardEntry)
    (hsorted : ((h.filter (inPlace moved)).map (fun item => item.id)).Pairwise
      (fun a b => b < a)) : RecentFirst h := by
  unfold RecentFirst
  have hsub := filter_sublist_of_imp (fun item : ClipboardEntry => !item.pinned)
    (inPlace moved) h (fun a _ ha => by simp only [inPlace, ha, Bool.true_or])
  have := List.Pairwise.sublist (hsub.map (fun item => item.id)) hsorted
  rw [List.pairwise_map] at this
  exact this

set_option maxRecDepth 100000 in
/-- C19, as stated, fails: the trim moves pinned entries to the front and `togglePin`
leaves an entry where it stands. In the free tier, with the clock values 1 to 22 read in
order: 20 contents are recorded, the oldest entry (id 1) is pinned, two more contents are
recorded, the second of which makes the trim fire and puts the pinned entry first, and
the entry is unpinned again. The unpinned entry with id 1 then stands before the
unpinned entry with id 22, which was created later. -/
theorem C19_counterexample :
    ((runOps { clipboardHistory := [], store := Store.empty }
        pinTrimUnpinOps).clipboardHistory.map (fun e => (e.id, e.pinned))).take 2
      = [(1, false), (22, false)] ∧
    ¬ RecentFirst (runOps { clipboardHistory := [], store := Store.empty }
        pinTrimUnpinOps).clipboardHistory := by
  unfold RecentFirst
  decide

/-- C19 (amended): in every collection reached from the empty collection by a sequence of
`recordNew`, `togglePin`, `deleteItem` and `clearHistory` operations with a strictly
increasing clock, in which no `togglePin` unpins an entry that was pinned at a
`recordNew` whose trim fired (the trim moved it to the front), the unpinned entries
appear most recent first: whenever one unpinned entry stands before another, its id, the
clock value at its creation, is the greater. Pinning, and unpinning an entry no firing
trim has moved, are both allowed. -/
theorem C19_recentFirst_unless_moved_unpinned (store : Store) (ops : List HistoryOp)
    (hadmitted : (followOps (followStart store) ops).isSome = true) :
    RecentFirst (runOps { clipboardHistory := [], store := store } ops).clipboardHistory := by
  cases hrun : followOps (followStart store) ops with
  | none => rw [hrun] at hadmitted; cases hadmitted
  | some last =>
    obtain ⟨h1, h2⟩ := followOps_invariant ops (followStart store) last hrun
      (fun e he => absurd he (List.not_mem_nil e)) List.Pairwise.nil
    have h3 := recentFirst_of_inPlace_sorted last.moved _ h2
    rw [h1] at h3
    exact h3

set_option maxRecDepth 100000 in
/-- Witness of C19 (amended): in the free tier, 20 contents recorded, the oldest entry
pinned, a 21st content recorded (the trim does not fire) and the entry unpinned again:
the run is admitted, its 21 entries are all unpinned and stand most recent first; the
run of the counterexample, which unpins after a firing trim, is not admitted. -/
theorem C19_recentFirst_unless_moved_unpinned_witness :
    unpinnedCount (runOps { clipboardHistory := [], store := Store.empty }
        pinUnpinInOrderOps).clipboardHistory = 21 ∧
    (followOps (followStart Store.empty) pinTrimUnpinOps).isSome = false ∧
    RecentFirst (runOps { clipboardHistory := [], store := Store.empty }
        pinUnpinInOrderOps).clipboardHistory :=
  ⟨by decide, by decide,
   C19_recentFirst_unless_moved_unpinned Store.empty pinUnpinInOrderOps (by decide)⟩

/-! ## Claims on the keys issued by the license server -/

theorem upperChar_hexDigit_ne_dash : ∀ n, n < 16 → upperChar (hexDigit n) ≠ '-' := by
  decide

theorem hexDigit_lt_128 : ∀ n, n < 16 → (hexDigit n).toNat < 128 := by
  decide

theorem rnd_data (b : Nat × Nat × Nat) :
    (rnd b).data.length = 5 ∧ List.count '-' (rnd b).data = 0 ∧
      ∀ c ∈ (rnd b).data, c.toNat < 128 := by
  have hlt : ∀ m : Nat, m % 16 < 16 := fun m => Nat.mod_lt m (by decide)
  have hhex : ∀ c ∈ hexByte b.1 ++ hexByte b.2.1 ++ hexByte b.2.2,
      ∃ n, n < 16 ∧ c = hexDigit n := by
    intro c hc
    simp only [hexByte, List.cons_append, List.nil_append, List.mem_cons, List.mem_singleton,
      List.not_mem_nil, or_false] at hc
    rcases hc with rfl | rfl | rfl | rfl | rfl | rfl <;> exact ⟨_, hlt _, rfl⟩
  have hdata : (rnd b).data
      = ((hexByte b.1 ++ hexByte b.2.1 ++ hexByte b.2.2).map upperChar).take 5 := by
    have h0 : (rnd b).data
        = ((hexByte b.1 ++ hexByte b.2.1 ++ hexByte b.2.2).flatMap upperCaseOf).take 5 := rfl
    rw [h0, flatMap_upperCaseOf_ascii]
    intro c hc
    obtain ⟨n, hn, rfl⟩ := hhex c hc
    exact hexDigit_lt_128 n hn
  rw [hdata]
  refine ⟨by simp [hexByte], ?_, ?_⟩
  · rw [List.count_eq_zero]
    intro hmem
    obtain ⟨c, hc, heq⟩ := List.mem_map.1 ((List.take_sublist _ _).subset hmem)
    obtain ⟨n, hn, rfl⟩ := hhex c hc
    exact upperChar_hexDigit_ne_dash n hn heq
  · intro c hmem
    obtain ⟨d, hd, rfl⟩ := List.mem_map.1 ((List.take_sublist _ _).subset hmem)
    obtain ⟨n, hn, rfl⟩ := hhex d hd
    exact upperChar_lt_128 (hexDigit_lt_128 n hn)

theorem generateLicenseKey_data (r1 r2 r3 r4 : Nat × Nat × Nat) :
    (generateLicenseKey r1 r2 r3 r4).data
      = ['P', 'R', 'O', '-'] ++ (rnd r1).data ++ ['-'] ++ (rnd r2).data ++ ['-']
        ++ (rnd r3).data ++ ['-'] ++ (rnd r4).data := by
  simp only [generateLicenseKey, String.data_append]

theorem count_dash_segment {s : List Char} (hs : IsSegment s) : List.count '-' s = 0 := by
  rw [List.count_eq_zero]
  intro hmem
  have hal := hs.2.2 '-' hmem
  have hd : ('-' : Char).toNat = 45 := by decide
  unfold IsAlphanumeric at hal
  omega

theorem count_dash_of_hasProForm {key : String} (h : HasProForm key) :
    List.count '-' key.data = 3 := by
  obtain ⟨p, r, o, s1, s2, s3, hk, hP, hR, hO, hs1, hs2, hs3⟩ := h
  have hp : (p == '-') = false := by rcases hP with rfl | rfl <;> decide
  have hr : (r == '-') = false := by rcases hR with rfl | rfl <;> decide
  have ho : (o == '-') = false := by rcases hO with rfl | rfl <;> decide
  rw [hk]
  simp only [List.count_append, List.count_cons, List.count_nil, count_dash_segment hs1,
    count_dash_segment hs2, count_dash_segment hs3, hp, hr, ho, beq_self_eq_true, if_true,
    Bool.false_eq_true, if_false]

theorem generateLicenseKey_invalid (r1 r2 r3 r4 : Nat × Nat × Nat) :
    isValidKey (generateLicenseKey r1 r2 r3 r4) = false := by
  have hdata := generateLicenseKey_data r1 r2 r3 r4
  have hcount : List.count '-' (generateLicenseKey r1 r2 r3 r4).data = 4 := by
    rw [hdata]
    simp [List.count_append, List.count_cons, (rnd_data r1).2.1, (rnd_data r2).2.1,
      (rnd_data r3).2.1, (rnd_data r4).2.1]
  have hascii : ∀ c ∈ (generateLicenseKey r1 r2 r3 r4).data, c.toNat < 128 := by
    intro c hc
    rw [hdata] at hc
    simp only [List.mem_append, List.mem_cons, List.mem_singleton, List.not_mem_nil,
      or_false] at hc
    have hP : ('P' : Char).toNat < 128 := by decide
    have hR : ('R' : Char).toNat < 128 := by decide
    have hO : ('O' : Char).toNat < 128 := by decide
    have hD : ('-' : Char).toNat < 128 := by decide
    rcases hc with ((((((((rfl | rfl | rfl | rfl) | h) | rfl) | h) | rfl) | h) | rfl) | h)
    · exact hP
    · exact hR
    · exact hO
    · exact hD
    · exact (rnd_data r1).2.2 c h
    · exact hD
    · exact (rnd_data r2).2.2 c h
    · exact hD
    · exact (rnd_data r3).2.2 c h
    · exact hD
    · exact (rnd_data r4).2.2 c h
  have hlen : (toUpperCase (generateLicenseKey r1 r2 r3 r4)).data.length = 27 := by
    rw [toUpperCase_data_ascii _ hascii]
    simp only [List.length_map, hdata, List.length_append, (rnd_data r1).1,
      (rnd_data r2).1, (rnd_data r3).1, (rnd_data r4).1, List.length_cons, List.length_nil]
  rw [← Bool.not_eq_true]
  intro hvalid
  rw [isValidKey, Bool.or_eq_true] at hvalid
  rcases hvalid with hlist | hform
  · have hmem : toUpperCase (generateLicenseKey r1 r2 r3 r4) ∈ validLicenses := by
      simpa using hlist
    simp only [validLicenses, List.mem_cons, List.mem_singleton, List.not_mem_nil,
      or_false] at hmem
    rcases hmem with h | h | h <;>
    · rw [h] at hlen
      revert hlen
      decide
  · have h3 := count_dash_of_hasProForm ((isValidFormat_iff _).1 hform)
    omega

/-- C20 fails on the code: `generateLicenseKey` joins four groups of five hexadecimal
digits after `PRO`, and the license check accepts three groups only. For every value of
the random bytes the issued key is rejected by `activateLicense`, which leaves the state
unchanged, and so is the deep link of the success page; for instance the key
`PRO-00000-FFFFF-ABCDE-12345` is issued and refused. -/
theorem C20_issued_key_rejected (st : AppState) (iso : String)
    (r1 r2 r3 r4 : Nat × Nat × Nat) :
    isValidKey (generateLicenseKey r1 r2 r3 r4) = false ∧
    (activateLicense st (generateLicenseKey r1 r2 r3 r4) iso).2.success = false ∧
    (activateLicense st (generateLicenseKey r1 r2 r3 r4) iso).1 = st ∧
    handleDeepLink st (some (successPageLink (generateLicenseKey r1 r2 r3 r4))) iso = st ∧
    generateLicenseKey (0, 0, 0) (255, 255, 255) (171, 205, 239) (18, 52, 86)
      = "PRO-00000-FFFFF-ABCDE-12345" := by
  have hinv := generateLicenseKey_invalid r1 r2 r3 r4
  have hact : activateLicense st (generateLicenseKey r1 r2 r3 r4) iso
      = (st, { success := false,
               message := "Invalid license key. Please check and try again." }) := by
    rw [activateLicense_eq, hinv]
    rfl
  refine ⟨hinv, by rw [hact], by rw [hact], ?_, by decide⟩
  have hdl := handleDeepLink_activate st (generateLicenseKey r1 r2 r3 r4) iso
  rw [successPageLink, hdl, hact]


/-! ## Claims on the settings -/

/-- C21 fails on the code: `save-settings` stores `settings.maxHistorySize` as it comes.
For every settings object, `getSettings` returns afterwards the very value that was
saved, and with a Pro license that value is the capacity `recordNew` uses; saving 5
(typed in the form, whose `min` of 10 is not enforced) gives the stored size 5 and the
capacity 5, outside the range from 10 to 1000, and saving -1 or 5000 does likewise. -/
theorem C21_saveSettings_stores_any_value (st : AppState) (settings : Settings) :
    getSettings (saveSettings st settings).1 = settings ∧
    ((saveSettings st settings).1.store.isPro.getD false = true →
      maxItems (saveSettings st settings).1.store = settings.maxHistorySize) ∧
    (getSettings (saveSettings proState
        { maxHistorySize := 5, globalHotkey := "CommandOrControl+Shift+V" }).1).maxHistorySize
      = 5 ∧
    maxItems (saveSettings proState
        { maxHistorySize := 5, globalHotkey := "CommandOrControl+Shift+V" }).1.store = 5 ∧
    maxItems (saveSettings proState
        { maxHistorySize := -1, globalHotkey := "CommandOrControl+Shift+V" }).1.store = -1 ∧
    maxItems (saveSettings proState
        { maxHistorySize := 5000, globalHotkey := "CommandOrControl+Shift+V" }).1.store
      = 5000 ∧
    ¬ ((10 : Int) ≤ 5 ∧ (5 : Int) ≤ 1000) := by
  refine ⟨rfl, ?_, by decide, by decide, by decide, by decide, by decide⟩
  intro hpro
  unfold maxItems
  rw [if_pos hpro]
  rfl


/-! ## Claims on recording a pinned content again -/

theorem eq_of_mem_of_length_le_one {α : Type} {l : List α} {a b : α} (hl : l.length ≤ 1)
    (ha : a ∈ l) (hb : b ∈ l) : a = b := by
  match l, hl, ha, hb with
  | [x], _, ha, hb => rw [List.mem_singleton.1 ha, List.mem_singleton.1 hb]

theorem filter_pinned_trim (h : List ClipboardEntry) (limit : Int) :
    (trimToCapacity h limit).filter (fun item => item.pinned)
      = h.filter (fun item => item.pinned) := by
  unfold trimToCapacity
  simp only
  split
  · rw [List.filter_append, List.filter_filter]
    have hnone : List.filter (fun item => item.pinned)
        (slice0 (List.filter (fun item => !item.pinned) h) limit) = [] := by
      rw [List.filter_eq_nil_iff]
      intro a ha
      have := (List.mem_filter.1 ((slice0_sublist _ _).subset ha)).2
      simpa using this
    rw [hnone, List.append_nil]
    simp only [Bool.and_self]
  · rfl

theorem filter_pinned_eraseP (p : ClipboardEntry → Bool) (h : List ClipboardEntry)
    (hpin : ∀ x ∈ h, p x = true → x.pinned = true) (hex : ∃ x ∈ h, p x = true) :
    ((h.eraseP p).filter (fun item => item.pinned)).length + 1
      = (h.filter (fun item => item.pinned)).length := by
  induction h with
  | nil => obtain ⟨x, hx, _⟩ := hex; cases hx
  | cons a rest ih =>
    by_cases ha : p a = true
    · have hap : a.pinned = true := hpin a (List.mem_cons_self _ _) ha
      simp [List.eraseP_cons, ha, List.filter_cons, hap]
    · have hex2 : ∃ x ∈ rest, p x = true := by
        obtain ⟨x, hx, hpx⟩ := hex
        rcases List.mem_cons.1 hx with rfl | hx
        · exact absurd hpx ha
        · exact ⟨x, hx, hpx⟩
      have ih2 := ih (fun x hx => hpin x (List.mem_cons_of_mem _ hx)) hex2
      simp only [List.eraseP_cons, ha, List.filter_cons, Bool.false_eq_true, cond_false]
      split
      · simp only [List.length_cons]; omega
      · exact ih2

/-- C23, as stated, fails on two counts. In a collection that holds the content twice,
an unpinned entry before a pinned one, `recordNew` removes the unpinned one only: a
pinned entry with the content remains and the number of pinned entries does not drop.
And with a Pro license and the stored limit 0, recording the content of the only,
pinned, entry leaves the collection empty: no entry with the content is left. -/
theorem C23_counterexample :
    ((recordNew { clipboardHistory := unpinnedAndPinnedSame, store := Store.empty }
        "c" 3 "t3").clipboardHistory
      = [ { id := 3, content := "c", type := "text", timestamp := "t3", pinned := false },
          { id := 1, content := "c", type := "text", timestamp := "t1", pinned := true } ] ∧
     ((recordNew { clipboardHistory := unpinnedAndPinnedSame, store := Store.empty }
        "c" 3 "t3").clipboardHistory.filter (fun item => item.pinned)).length
      = (unpinnedAndPinnedSame.filter (fun item => item.pinned)).length) ∧
    (recordNew zeroLimitPinnedState "c" 3 "t3").clipboardHistory = [] := by
  decide

/-- C23 (amended): for every collection that holds the content `c` in one entry only,
that entry being pinned, `recordNew(c)` leaves no pinned entry with content `c` and one
pinned entry less than before; and when the limit `maxItems` is at least 1 the new
entry, which is not pinned and so counts among the entries the trim may cut, is in the
collection and is the only entry with content `c`. -/
theorem C23_recordNew_unpins (st : AppState) (content : String) (now : Nat) (iso : String)
    (e : ClipboardEntry) (hmem : e ∈ st.clipboardHistory) (hpinned : e.pinned = true)
    (hcontent : e.content = content)
    (honce : (st.clipboardHistory.filter (fun item => item.content == content)).length ≤ 1) :
    (∀ x ∈ (recordNew st content now iso).clipboardHistory,
      x.content = content → x.pinned = false) ∧
    ((recordNew st content now iso).clipboardHistory.filter (fun item => item.pinned)).length + 1
      = (st.clipboardHistory.filter (fun item => item.pinned)).length ∧
    e ∉ (recordNew st content now iso).clipboardHistory ∧
    (1 ≤ maxItems st.store →
      (recordNew st content now iso).clipboardHistory.filter
          (fun item => item.content == content) = [newItem content now iso] ∧
      newItem content now iso ∈ (recordNew st content now iso).clipboardHistory.filter
          (fun item => !item.pinned)) := by
  have hno := no_content_dropExisting_of_count honce
  have hall : ∀ x ∈ (recordNew st content now iso).clipboardHistory,
      x.content = content → x = newItem content now iso := by
    intro x hx hxc
    obtain ⟨l, hs, hp⟩ := trim_perm_sublist
      (newItem content now iso :: dropExisting st.clipboardHistory content) (maxItems st.store)
    rcases List.mem_cons.1 (hp.subset (hs.subset hx)) with h1 | h1
    · exact h1
    · exact absurd hxc (hno x h1)
  have hefilter : e ∈ st.clipboardHistory.filter (fun item => item.content == content) :=
    List.mem_filter.2 ⟨hmem, by simpa using hcontent⟩
  refine ⟨?_, ?_, ?_, ?_⟩
  · intro x hx hxc
    rw [hall x hx hxc]
    rfl
  · have hrec : (recordNew st content now iso).clipboardHistory.filter (fun item => item.pinned)
        = (dropExisting st.clipboardHistory content).filter (fun item => item.pinned) := by
      simp only [recordNew, recordNewList, filter_pinned_trim]
      simp [List.filter_cons, newItem]
    rw [hrec, dropExisting_eq_eraseP]
    apply filter_pinned_eraseP
    · intro x hx hpx
      have hxf : x ∈ st.clipboardHistory.filter (fun item => item.content == content) :=
        List.mem_filter.2 ⟨hx, hpx⟩
      rw [eq_of_mem_of_length_le_one honce hxf hefilter]
      exact hpinned
    · exact ⟨e, hmem, by simpa using hcontent⟩
  · intro he
    have := hall e he hcontent
    rw [this] at hpinned
    cases hpinned
  · intro hlimit
    obtain ⟨pins, rest, heq, hpins, hrest, _⟩ :=
      recordNewList_shape st.clipboardHistory (maxItems st.store) content now iso hlimit
    have heq2 : (recordNew st content now iso).clipboardHistory
        = pins ++ newItem content now iso :: rest := heq
    constructor
    · rw [heq2, List.filter_append, List.filter_cons]
      have h1 : pins.filter (fun item => item.content == content) = [] := by
        rw [List.filter_eq_nil_iff]
        intro a ha
        simpa using hno a (hpins a ha).2
      have h2 : rest.filter (fun item => item.content == content) = [] := by
        rw [List.filter_eq_nil_iff]
        intro a ha
        simpa using hno a (hrest a ha)
      simp [h1, h2, newItem]
    · rw [heq2]
      exact List.mem_filter.2 ⟨by simp, rfl⟩

/-- Witness of C23 (amended): the pinned entry "a" of a two-entry collection is recorded
again in the free tier. -/
theorem C23_recordNew_unpins_witness :
    ((recordNew pinnedAndPlainState "a" 3 "t3").clipboardHistory.filter
        (fun item => item.pinned)).length + 1
      = (pinnedAndPlainState.clipboardHistory.filter (fun item => item.pinned)).length :=
  (C23_recordNew_unpins pinnedAndPlainState "a" 3 "t3"
    { id := 1, content := "a", type := "text", timestamp := "t1", pinned := true }
    (by decide) rfl rfl (by decide)).2.1


/-! ## Claims on sequences of license operations -/

theorem upperChar_idem (c : Char) : upperChar (upperChar c) = upperChar c := by
  by_cases h : 97 ≤ c.toNat ∧ c.toNat ≤ 122
  · apply char_eq_of_toNat_eq
    have h1 : (upperChar c).toNat = c.toNat - 32 := by rw [upperChar_toNat, if_pos h]
    rw [upperChar_toNat (upperChar c), if_neg (by rw [h1]; omega)]
  · have h1 : upperChar c = c := by
      unfold upperChar
      rw [if_neg h]
    rw [h1, h1]

theorem isAlphanumeric_lt_128 {c : Char} (h : IsAlphanumeric c) : c.toNat < 128 := by
  unfold IsAlphanumeric at h
  omega

theorem isAlphanumeric_upperChar {c : Char} (h : IsAlphanumeric c) :
    IsAlphanumeric (upperChar c) := by
  unfold IsAlphanumeric at h ⊢
  rw [upperChar_toNat]
  split <;> omega

theorem isSegment_map_upperChar {s : List Char} (h : IsSegment s) :
    IsSegment (s.map upperChar) := by
  refine ⟨by simpa using h.1, by simpa using h.2.1, ?_⟩
  intro c hc
  obtain ⟨d, hd, rfl⟩ := List.mem_map.1 hc
  exact isAlphanumeric_upperChar (h.2.2 d hd)

theorem hasProForm_ascii {key : String} (h : HasProForm key) :
    ∀ c ∈ key.data, c.toNat < 128 := by
  obtain ⟨p, r, o, s1, s2, s3, hk, hP, hR, hO, hs1, hs2, hs3⟩ := h
  have hp : p.toNat < 128 := by rcases hP with rfl | rfl <;> decide
  have hr : r.toNat < 128 := by rcases hR with rfl | rfl <;> decide
  have ho : o.toNat < 128 := by rcases hO with rfl | rfl <;> decide
  have hd : ('-' : Char).toNat < 128 := by decide
  intro c hc
  rw [hk] at hc
  simp only [List.mem_append, List.mem_cons, List.mem_singleton, List.not_mem_nil,
    or_false] at hc
  rcases hc with ((((((rfl | rfl | rfl | rfl) | h) | rfl) | h) | rfl) | h)
  · exact hp
  · exact hr
  · exact ho
  · exact hd
  · exact isAlphanumeric_lt_128 (hs1.2.2 c h)
  · exact hd
  · exact isAlphanumeric_lt_128 (hs2.2.2 c h)
  · exact hd
  · exact isAlphanumeric_lt_128 (hs3.2.2 c h)

theorem hasProForm_toUpperCase {key : String} (h : HasProForm key) :
    HasProForm (toUpperCase key) := by
  have hascii := hasProForm_ascii h
  obtain ⟨p, r, o, s1, s2, s3, hk, hP, hR, hO, hs1, hs2, hs3⟩ := h
  have hp : upperChar p = 'P' := by rcases hP with rfl | rfl <;> decide
  have hr : upperChar r = 'R' := by rcases hR with rfl | rfl <;> decide
  have ho : upperChar o = 'O' := by rcases hO with rfl | rfl <;> decide
  have hd : upperChar '-' = '-' := by decide
  refine ⟨'P', 'R', 'O', s1.map upperChar, s2.map upperChar, s3.map upperChar, ?_,
    Or.inl rfl, Or.inl rfl, Or.inl rfl, isSegment_map_upperChar hs1,
    isSegment_map_upperChar hs2, isSegment_map_upperChar hs3⟩
  rw [toUpperCase_data_ascii _ hascii]
  simp only [hk, List.map_append, List.map_cons, List.map_nil, hp, hr, ho, hd]

theorem toUpperCase_fixed_of_hasProForm {key : String} (h : HasProForm key) :
    toUpperCase (toUpperCase key) = toUpperCase key := by
  have h1 := toUpperCase_data_ascii key (hasProForm_ascii h)
  have h2 := toUpperCase_data_ascii (toUpperCase key) (hasProForm_ascii (hasProForm_toUpperCase h))
  apply String.ext
  rw [h2, h1, List.map_map]
  apply List.map_congr_left
  intro c _
  exact upperChar_idem c

theorem activated_key_facts {key : String} (h : isValidKey key = true) :
    toUpperCase key ≠ "" ∧ toUpperCase (toUpperCase key) = toUpperCase key ∧
      isValidKey (toUpperCase key) = true := by
  unfold isValidKey at h
  rw [Bool.or_eq_true] at h
  rcases h with h | h
  · have hmem : toUpperCase key ∈ validLicenses := by simpa using h
    simp only [validLicenses, List.mem_cons, List.mem_singleton, List.not_mem_nil,
      or_false] at hmem
    rcases hmem with h1 | h1 | h1 <;> rw [h1] <;> decide
  · have hform := (isValidFormat_iff _).1 h
    have hup := hasProForm_toUpperCase hform
    refine ⟨?_, toUpperCase_fixed_of_hasProForm hform, ?_⟩
    · intro hempty
      rw [hempty] at hup
      have hfalse : isValidFormat "" = true := (isValidFormat_iff _).2 hup
      revert hfalse
      decide
    · unfold isValidKey
      rw [Bool.or_eq_true]
      exact Or.inr ((isValidFormat_iff _).2 hup)

/-! ## The upper-case forms left out of `upperCaseOf` do not matter to the license check -/

theorem upperCaseOf_remaining {c : Char} (h : isRemaining c = true) :
    upperCaseOf c = [c] ∧ 128 ≤ c.toNat := by
  simp only [isRemaining, Bool.and_eq_true, decide_eq_true_eq, Option.isNone_iff_eq_none] at h
  obtain ⟨hge, hnone⟩ := h
  refine ⟨?_, hge⟩
  unfold upperCaseOf
  rw [hnone]
  have hup : upperChar c = c := by
    unfold upperChar
    rw [if_neg (by omega)]
  simp only [hup]

theorem flatMap_upperCaseOfWith_of_no_remaining (other : Char → List Char) (l : List Char)
    (h : ∀ c ∈ l, isRemaining c = false) :
    l.flatMap (upperCaseOfWith other) = l.flatMap upperCaseOf := by
  induction l with
  | nil => rfl
  | cons a rest ih =>
    rw [List.flatMap_cons, List.flatMap_cons, ih (fun c hc => h c (List.mem_cons_of_mem _ hc))]
    simp only [upperCaseOfWith, h a (List.mem_cons_self _ _), Bool.false_eq_true, if_false]

theorem exists_nonAscii_of_remaining (other : Char → List Char) (hother : NonAsciiForms other)
    (l : List Char) (c : Char) (hc : c ∈ l) (hrem : isRemaining c = true) :
    (∃ d ∈ l.flatMap (upperCaseOfWith other), 128 ≤ d.toNat) ∧
    (∃ d ∈ l.flatMap upperCaseOf, 128 ≤ d.toNat) := by
  obtain ⟨hne, hall⟩ := hother c hrem
  obtain ⟨hself, hge⟩ := upperCaseOf_remaining hrem
  constructor
  · obtain ⟨d, hd⟩ := List.exists_mem_of_ne_nil _ hne
    refine ⟨d, List.mem_flatMap.2 ⟨c, hc, ?_⟩, hall d hd⟩
    simp only [upperCaseOfWith, hrem, if_true]
    exact hd
  · refine ⟨c, List.mem_flatMap.2 ⟨c, hc, ?_⟩, hge⟩
    rw [hself]
    exact List.mem_singleton.2 rfl

/-- Whatever non-ASCII forms the remaining characters have, the upper-case form of a key
is a given ASCII string exactly when `toUpperCase` says so. -/
theorem toUpperCaseWith_eq_ascii_iff (other : Char → List Char) (hother : NonAsciiForms other)
    (key literal : String) (hascii : ∀ d ∈ literal.data, d.toNat < 128) :
    toUpperCaseWith other key = literal ↔ toUpperCase key = literal := by
  by_cases hrem : ∃ c ∈ key.data, isRemaining c = true
  · obtain ⟨c, hc, hcr⟩ := hrem
    obtain ⟨⟨d1, hd1, hge1⟩, ⟨d2, hd2, hge2⟩⟩ :=
      exists_nonAscii_of_remaining other hother key.data c hc hcr
    constructor
    · intro h
      have hmem : d1 ∈ literal.data := by rw [← h]; exact hd1
      have := hascii d1 hmem
      omega
    · intro h
      have hmem : d2 ∈ literal.data := by rw [← h]; exact hd2
      have := hascii d2 hmem
      omega
  · have hnone : ∀ c ∈ key.data, isRemaining c = false := by
      intro c hc
      cases hr : isRemaining c with
      | false => rfl
      | true => exact absurd ⟨c, hc, hr⟩ hrem
    have heq : toUpperCaseWith other key = toUpperCase key := by
      unfold toUpperCaseWith toUpperCase
      rw [flatMap_upperCaseOfWith_of_no_remaining other key.data hnone]
    rw [heq]

theorem validLicenses_ascii : ∀ literal ∈ validLicenses, ∀ d ∈ literal.data, d.toNat < 128 := by
  decide

/-- The license check does not depend on the upper-case forms `upperCaseOf` leaves out:
whatever non-ASCII forms the remaining characters have, line 213 gives the same verdict
as `isValidKey`, and a key that passes has the same upper-case form as `toUpperCase`
gives it, so the same key is stored. -/
theorem isValidKeyWith_eq (other : Char → List Char) (hother : NonAsciiForms other)
    (key : String) :
    isValidKeyWith other key = isValidKey key ∧
    (isValidKey key = true → toUpperCaseWith other key = toUpperCase key) := by
  have hlist : validLicenses.contains (toUpperCaseWith other key)
      = validLicenses.contains (toUpperCase key) := by
    rw [Bool.eq_iff_iff]
    simp only [List.contains_iff_exists_mem_beq, beq_iff_eq]
    constructor
    · rintro ⟨literal, hmem, heq⟩
      exact ⟨literal, hmem,
        (toUpperCaseWith_eq_ascii_iff other hother key literal
          (validLicenses_ascii literal hmem)).1 heq⟩
    · rintro ⟨literal, hmem, heq⟩
      exact ⟨literal, hmem,
        (toUpperCaseWith_eq_ascii_iff other hother key literal
          (validLicenses_ascii literal hmem)).2 heq⟩
  refine ⟨by unfold isValidKeyWith isValidKey; rw [hlist], ?_⟩
  intro hvalid
  unfold isValidKey at hvalid
  rw [Bool.or_eq_true] at hvalid
  rcases hvalid with h | h
  · have hmem : toUpperCase key ∈ validLicenses := by simpa using h
    exact (toUpperCaseWith_eq_ascii_iff other hother key (toUpperCase key)
      (validLicenses_ascii _ hmem)).2 rfl
  · have hascii := hasProForm_ascii ((isValidFormat_iff _).1 h)
    unfold toUpperCaseWith toUpperCase
    rw [flatMap_upperCaseOfWith_of_no_remaining other key.data]
    intro c hc
    have hlt := hascii c hc
    simp only [isRemaining, Bool.and_eq_false_iff, decide_eq_false_iff_not]
    left
    omega

/-! ## The license status along a run of operations -/

theorem licenseConsistent_cleared :
    LicenseConsistent { isPro := false, licenseKey := "", activatedDate := none } := by
  refine ⟨?_, ?_, ?_⟩ <;> simp

theorem licenseConsistent_activated {key : String} (iso : String)
    (h : isValidKey key = true) :
    LicenseConsistent
      { isPro := true, licenseKey := toUpperCase key, activatedDate := some iso } := by
  obtain ⟨hune, hfix, hvalid⟩ := activated_key_facts h
  refine ⟨?_, ?_, ?_⟩
  · simp [hune]
  · simp
  · intro _
    exact ⟨hfix, hvalid⟩

theorem applyLicenseOp_status (st : AppState) (op : LicenseOp) :
    applyLicenseOp st op = st ∨
    getLicenseStatus (applyLicenseOp st op)
      = { isPro := false, licenseKey := "", activatedDate := none } ∨
    ∃ key iso, isValidKey key = true ∧
      getLicenseStatus (applyLicenseOp st op)
        = { isPro := true, licenseKey := toUpperCase key, activatedDate := some iso } := by
  have hact : ∀ key iso, (activateLicense st key iso).1 = st ∨
      ∃ k i, isValidKey k = true ∧
        getLicenseStatus (activateLicense st key iso).1
          = { isPro := true, licenseKey := toUpperCase k, activatedDate := some i } := by
    intro key iso
    rw [activateLicense_eq]
    by_cases hv : isValidKey key = true
    · rw [if_pos hv]
      exact Or.inr ⟨key, iso, hv, rfl⟩
    · rw [if_neg hv]
      exact Or.inl rfl
  have hreply : ∀ reply, onLicenseReply st reply = st ∨
      getLicenseStatus (onLicenseReply st reply)
        = { isPro := false, licenseKey := "", activatedDate := none } := by
    intro reply
    cases reply with
    | transportError => exact Or.inl rfl
    | body parsed =>
      cases parsed with
      | none => exact Or.inl rfl
      | some json =>
        simp only [onLicenseReply]
        cases readRevoked json with
        | none => exact Or.inl rfl
        | some revoked =>
          simp only
          split
          · exact Or.inr rfl
          · exact Or.inl rfl
  cases op with
  | activateLicense key iso =>
    rcases hact key iso with h | h
    · exact Or.inl h
    · exact Or.inr (Or.inr h)
  | deactivateLicense => exact Or.inr (Or.inl rfl)
  | deepLink parsed iso =>
    simp only [applyLicenseOp]
    cases parsed with
    | none => exact Or.inl rfl
    | some url =>
      obtain ⟨host, k⟩ := url
      by_cases hh : host = "activate"
      · subst hh
        cases k with
        | none => left; simp only [handleDeepLink, ite_self]
        | some key =>
          rw [handleDeepLink_activate]
          rcases hact key iso with h | h
          · exact Or.inl h
          · exact Or.inr (Or.inr h)
      · left
        have hne : (host == "activate") = false := by simpa using hh
        simp only [handleDeepLink, hne, Bool.false_eq_true, if_false]
  | checkLicenseWithServer reply =>
    simp only [applyLicenseOp, checkLicenseWithServer]
    split
    · exact Or.inl rfl
    · rcases hreply reply with h | h
      · exact Or.inl h
      · exact Or.inr (Or.inl h)
  | lateReply reply =>
    rcases hreply reply with h | h
    · exact Or.inl h
    · exact Or.inr (Or.inl h)

theorem licenseConsistent_runOps (ops : List LicenseOp) :
    ∀ st : AppState, LicenseConsistent (getLicenseStatus st) →
      LicenseConsistent (getLicenseStatus (runLicenseOps st ops)) := by
  induction ops with
  | nil => intro st h; exact h
  | cons op rest ih =>
    intro st h
    apply ih
    rcases applyLicenseOp_status st op with h1 | h1 | ⟨key, iso, hv, h1⟩
    · rw [h1]; exact h
    · rw [h1]; exact licenseConsistent_cleared
    · rw [h1]; exact licenseConsistent_activated iso hv

/-- C22: in every state reached from the first-run defaults (`isPro` false, no key, no
activation date) by any sequence of `activateLicense`, `deactivateLicense`, deep links
and reconciliation with the server (the reply coming at once or after other
operations), `isPro` is true exactly when `licenseKey` is not empty and exactly when
`activatedDate` is not null, and a non-empty `licenseKey` is its own upper-case form and
passes the validation of `activateLicense`. -/
theorem C22_license_status_consistent (st : AppState) (ops : List LicenseOp)
    (hfirst : getLicenseStatus st
      = { isPro := false, licenseKey := "", activatedDate := none }) :
    ((getLicenseStatus (runLicenseOps st ops)).isPro = true ↔
      (getLicenseStatus (runLicenseOps st ops)).licenseKey ≠ "") ∧
    ((getLicenseStatus (runLicenseOps st ops)).isPro = true ↔
      (getLicenseStatus (runLicenseOps st ops)).activatedDate ≠ none) ∧
    ((getLicenseStatus (runLicenseOps st ops)).licenseKey ≠ "" →
      toUpperCase (getLicenseStatus (runLicenseOps st ops)).licenseKey
        = (getLicenseStatus (runLicenseOps st ops)).licenseKey ∧
      isValidKey (getLicenseStatus (runLicenseOps st ops)).licenseKey = true) :=
  licenseConsistent_runOps ops st (by rw [hfirst]; exact licenseConsistent_cleared)

/-- Witness of C22: from the empty store, a rejected key, a lower-case key accepted
through a deep link, a reply without revocation, and the status that results. -/
theorem C22_license_status_consistent_witness :
    getLicenseStatus (runLicenseOps { clipboardHistory := [], store := Store.empty }
        [ .activateLicense "not-a-key" "d0",
          .deepLink (some { hostname := "activate", key := some "pro-ab12-cd34-ef56" }) "d1",
          .checkLicenseWithServer (.body (some (notFoundBody "PRO-AB12-CD34-EF56"))) ])
      = { isPro := true, licenseKey := "PRO-AB12-CD34-EF56", activatedDate := some "d1" } ∧
    isValidKey (getLicenseStatus (runLicenseOps { clipboardHistory := [], store := Store.empty }
        [ .activateLicense "not-a-key" "d0",
          .deepLink (some { hostname := "activate", key := some "pro-ab12-cd34-ef56" }) "d1",
          .checkLicenseWithServer (.body (some (notFoundBody "PRO-AB12-CD34-EF56"))) ])).licenseKey
      = true :=
  ⟨by decide,
   ((C22_license_status_consistent { clipboardHistory := [], store := Store.empty }
      [ .activateLicense "not-a-key" "d0",
        .deepLink (some { hostname := "activate", key := some "pro-ab12-cd34-ef56" }) "d1",
        .checkLicenseWithServer (.body (some (notFoundBody "PRO-AB12-CD34-EF56"))) ]
      rfl).2.2 (by decide)).2⟩

end MinimalisticClipboard
